import Mathlib

/-!
onnx-mlir: runtime tensor descriptor, shape resolution and loop-nest lowering

A shallow embedding of

* `include/onnx-mlir/Runtime/OMTensor.h`: `getNumOfElems`, `CartProduct`,
  `computeStridesFromSizes`, `computeElemOffset`, the constructor and the
  destructor of `OMTensor`;
* `src/Conversion/ONNXToKrnl/Math/MatMul.cpp`: the rank dispatch of
  `matchAndRewrite`, the tile selection and the loop nest of
  `replace2x2Matmul2d`, the loop nest of `replaceGenericMatmul`;
* `src/Dialect/ONNX/ShapeInference/TopK.cpp`: `computeShape`;
* `src/Conversion/ONNXToKrnl/Tensor/Slice.cpp`: the index construction and the
  loop nest of `matchAndRewrite`.

Conventions.

* An array passed as `(int64_t *p, int rank)` is a `List Int` whose length is
  `rank`.
* `int64_t` values are `Int`, and the products and sums that
  `OMTensor.h` computes on them are 64-bit: `mulInt64` and `addInt64` give the
  two's-complement result that the compiled code leaves when the exact result
  does not fit (the C++ standard leaves signed overflow undefined).  A
  statement about the exact product or sum carries `fitsInt64` of that value.
  The sum `axis + rank` of `TopK.cpp` is taken only for `axis < 0 ≤ rank`, so
  it stays between its two `int64_t` operands.
* An operation whose C++ behaviour is undefined (an invalid iterator range, a
  read or write past the end of a vector) yields `none`.
-/

namespace OnnxMlir

/-! ## 64-bit integers -/

/-- The `int64_t` that holds the exact value `x`: the representative of `x`
modulo 2^64 in `[-2^63, 2^63)`. -/
def wrapInt64 (x : Int) : Int :=
  (x + 9223372036854775808) % 18446744073709551616 - 9223372036854775808

/-- The value `x` is representable as an `int64_t`: `-2^63 ≤ x < 2^63`. -/
abbrev fitsInt64 (x : Int) : Prop :=
  -9223372036854775808 ≤ x ∧ x < 9223372036854775808

/-- The product `a * b` of two `int64_t` values, as an `int64_t`. -/
def mulInt64 (a b : Int) : Int :=
  wrapInt64 (a * b)

/-- The sum `a + b` of two `int64_t` values, as an `int64_t`. -/
def addInt64 (a b : Int) : Int :=
  wrapInt64 (a + b)

/-! ## OMTensor.h -/

/-- Body of `getNumOfElems` (OMTensor.h 108-113):
`numElem = 1; for (i = 0; i < rank; i++) numElem *= dataSizes[i];`, with
`numElem` an `int64_t`. -/
def getNumOfElems (dataSizes : List Int) : Int :=
  dataSizes.foldl (fun numElem d => mulInt64 numElem d) 1

/-- Body of `CartProduct` (OMTensor.h 290-304): `s` starts as `{{}}`; for each
`u` of `v`, every `x` of `s` is extended by every `y` of `u`, in that nesting
order. -/
def CartProduct (v : List (List Int)) : List (List Int) :=
  v.foldl (fun s u => s.flatMap (fun x => u.map (fun y => x ++ [y]))) [[]]

/-- The range constructor `std::vector<int64_t>(p + lo, p + hi)` over the array
`p`: the elements at positions `lo .. hi - 1`.  The iterator range is valid only
when `lo ≤ hi` and `hi` does not pass the end of the array. -/
def vectorOfRange (p : List Int) (lo hi : Nat) : Option (List Int) :=
  if lo ≤ hi ∧ hi ≤ p.length then some ((p.drop lo).take (hi - lo)) else none

/-- Loop of `std::partial_sum` after the first element: `sum = op(sum, *first)`
is written to the next output position. -/
def partialSumLoop (op : Int → Int → Int) (sum : Int) : List Int → List Int
  | [] => []
  | y :: ys => op sum y :: partialSumLoop op (op sum y) ys

/-- The values `std::partial_sum(first, last, d_first, op)` writes, in writing
order: nothing for an empty input, otherwise the first element followed by the
running `op`. -/
def partial_sum (op : Int → Int → Int) : List Int → List Int
  | [] => []
  | x :: xs => x :: partialSumLoop op x xs

/-- Body of `computeStridesFromSizes` (OMTensor.h 307-321).
`sizesVec` is `dataSizes[1 .. rank)` followed by `1`; `dimStrides` has `rank`
zero-initialised elements; `partial_sum` reads `sizesVec` from the back and
writes `dimStrides` from the back, one output per input, with
`std::multiplies<>` on `int64_t` as the operation. -/
def computeStridesFromSizes (dataSizes : List Int) : Option (List Int) :=
  let rank := dataSizes.length
  match vectorOfRange dataSizes 1 rank with
  | none => none
  | some v =>
    let sizesVec := v ++ [1]
    let written := partial_sum mulInt64 sizesVec.reverse
    if written.length ≤ rank then
      some ((written ++ List.replicate (rank - written.length) 0).reverse)
    else none

/-- The call `std::inner_product(first1, last1, first2, init)`: the first range
drives the loop, `init = init + *first1 * *first2` on `int64_t` values; the
second range has to be at least as long as the first. -/
def inner_product : List Int → List Int → Int → Option Int
  | [], _, init => some init
  | _ :: _, [], _ => none
  | x :: xs, y :: ys, init => inner_product xs ys (addInt64 init (mulInt64 x y))

/-- Body of `computeElemOffset` (OMTensor.h 325-331): `dimStrides` is the
`rank` strides, and the inner product runs over `indexes`.  The sizes of the
tensor are not an argument. -/
def computeElemOffset (dataStrides : List Int) (indexes : List Int) : Option Int :=
  inner_product indexes dataStrides 0

/-- Index range `[0, n)` of one dimension, as `int64_t` values. -/
def indexRange (n : Nat) : List Int :=
  (List.range n).map (fun i : Nat => (i : Int))

/-! ## Index expressions -/

/-- An index expression as the lowering sees it (`IndexExpr.hpp`, a header that
is not among the sources): undefined, a literal known when lowering, or a value
known only at run time. -/
inductive IndexExpr where
  | undefined
  | literal (v : Int)
  | dynamic
deriving DecidableEq, Repr

/-- The query `isLiteral()`. -/
def IndexExpr.isLiteral : IndexExpr → Bool
  | .literal _ => true
  | _ => false

/-- One dimension of a memref: its extent at run time, and whether the memref
type records that extent (a static dimension). -/
structure Dim where
  size : Nat
  isStatic : Bool
deriving DecidableEq, Repr

/-- The expression `DimIndexExpr(create.mem.dim(memref, d))` of MatMul.cpp
125-136: a literal for a static dimension, a run-time value otherwise. -/
def DimIndexExpr (d : Dim) : IndexExpr :=
  if d.isStatic then .literal d.size else .dynamic

/-! ## MatMul.cpp: dispatch and tile selection -/

/-- The two lowerings `matchAndRewrite` chooses between. -/
inductive MatMulPath where
  | dense2d
  | generic
deriving DecidableEq, Repr

/-- The branch of `matchAndRewrite` (MatMul.cpp 211-220):
`if (aRank == 2 && bRank == 2) replace2x2Matmul2d(...) else
replaceGenericMatmul(...)`, on the ranks of the operand memrefs. -/
def matchAndRewrite (aRank bRank : Nat) : MatMulPath :=
  if aRank = 2 ∧ bRank = 2 then .dense2d else .generic

/-- The block sizes `{iRegTile, jRegTile, kRegTile}`. -/
structure RegTiles where
  iRegTile : Int
  jRegTile : Int
  kRegTile : Int
deriving DecidableEq, Repr

/-- Tile selection of `replace2x2Matmul2d` (MatMul.cpp 134-163).  The defaults
are 4, 8, 8; `%` on `int64_t` truncates toward zero (`Int.tmod`). -/
def regTiles (dimI dimJ dimK : IndexExpr) : RegTiles :=
  let iRegTile : Int := 4
  let jRegTile : Int := 8
  let kRegTile : Int := 8
  let iRegTile :=
    match dimI with
    | .literal constI => if constI < iRegTile then constI else iRegTile
    | _ => iRegTile
  let jRegTile :=
    match dimJ with
    | .literal constJ =>
      if constJ.tmod jRegTile ≠ 0 ∧ constJ.tmod 4 = 0 ∧ constJ ≤ 32 then 4 else jRegTile
    | _ => jRegTile
  let kRegTile :=
    match dimK with
    | .literal constK => if constK < kRegTile then constK else kRegTile
    | _ => kRegTile
  { iRegTile := iRegTile, jRegTile := jRegTile, kRegTile := kRegTile }

/-! ## MatMul.cpp: the loop nests -/

/-- Contents of a memref, by index tuple. -/
abbrev Tensor (α : Type) := List Nat → α

/-- Modelled from the spec: `krnl.memset(alloc, zeroVal)`, which is not among
the sources; "the output buffer is zero-initialized before the tiled loop
executes": every element becomes `zeroVal`. -/
def krnlMemset {α : Type} (_alloc : Tensor α) (zeroVal : α) : Tensor α :=
  fun _ => zeroVal

/-- Modelled from the spec: the outer loop that `krnl.block` leaves, "an outer
loop over blocks": the block starts 0, `tile`, 2 `tile`, ... below `ub`.  A
block size 0 is chosen only for a literal dimension of size 0, whose loop has
no iteration. -/
def blockStarts (ub tile : Nat) : List Nat :=
  (List.range ((ub + tile - 1) / tile)).map (fun b => b * tile)

/-- Modelled from the spec: "an inner loop within a block": the indices of the
block that starts at `start`, cut at the upper bound of the dimension. -/
def tileRange (start tile ub : Nat) : List Nat :=
  List.range' start (min (start + tile) ub - start)

/-- Modelled from the spec: the `krnl.matmul` kernel, which is not among the
sources; "a fused multiply-accumulate micro-kernel" on one block:
`C[i, j] = C[i, j] + A[i, k] * B[k, j]` for the `i`, `j`, `k` of the block that
starts at `(i1, j1, k1)`, within the global bounds `{I, J, K}`, in the loop
order `ii2, jj2, kk2` of the permutation. -/
def krnlMatmul {α : Type} (add mul : α → α → α) (A B : Tensor α) (I J K : Nat)
    (iTile jTile kTile : Nat) (i1 j1 k1 : Nat) (C : Tensor α) : Tensor α :=
  (tileRange i1 iTile I).foldl (fun C i =>
    (tileRange j1 jTile J).foldl (fun C j =>
      (tileRange k1 kTile K).foldl (fun C k =>
        Function.update C [i, j] (add (C [i, j]) (mul (A [i, k]) (B [k, j])))) C) C) C

/-- Body of `replace2x2Matmul2d` (MatMul.cpp 115-184).  `dI`, `dJ` are the
dimensions 0 and 1 of the output `C`, `dK` is dimension 1 of `A`.  The output is
set to zero, the tiles are selected, and `krnl.iterate` runs the kernel on the
blocks in the order `ii1, jj1, kk1`. -/
def replace2x2Matmul2d {α : Type} (add mul : α → α → α) (zeroVal : α) (A B : Tensor α)
    (dI dJ dK : Dim) (alloc : Tensor α) : Tensor α :=
  let C := krnlMemset alloc zeroVal
  let tiles := regTiles (DimIndexExpr dI) (DimIndexExpr dJ) (DimIndexExpr dK)
  let iRegTile := tiles.iRegTile.toNat
  let jRegTile := tiles.jRegTile.toNat
  let kRegTile := tiles.kRegTile.toNat
  (blockStarts dI.size iRegTile).foldl (fun C i1 =>
    (blockStarts dJ.size jRegTile).foldl (fun C j1 =>
      (blockStarts dK.size kRegTile).foldl (fun C k1 =>
        krnlMatmul add mul A B dI.size dJ.size dK.size iRegTile jRegTile kRegTile
          i1 j1 k1 C) C) C) C

/-- One step of the loop `for (i = 0; i < aRank; ++i)` of MatMul.cpp 70-97,
on the pair `(aAccessFct, bAccessFct)`.  `aRank`, `bRank`, `outerLoopNum` are
`int`, so the comparisons are on `Int`; reading `outerIndices` or a pad flag at
a position that does not exist yields `none`. -/
def accessStep (aRank outerLoopNum : Nat) (aPadDims bPadDims : List Bool)
    (outerIndices : List Nat) (k : Nat) (acc : List Nat × List Nat) (i : Nat) :
    Option (List Nat × List Nat) := do
  let bRank := aRank
  let aPad ← aPadDims[i]?
  let bPad ← bPadDims[i]?
  let aAccessFct ←
    if !aPad then
      if (i : Int) = (aRank : Int) - 1 then some (acc.1 ++ [k])
      else (outerIndices[i]?).map (fun v => acc.1 ++ [v])
    else some acc.1
  let bAccessFct ←
    if !bPad then
      if (i : Int) = (bRank : Int) - 2 then some (acc.2 ++ [k])
      else if i = outerLoopNum then (outerIndices[i - 1]?).map (fun v => acc.2 ++ [v])
      else (outerIndices[i]?).map (fun v => acc.2 ++ [v])
    else some acc.2
  pure (aAccessFct, bAccessFct)

/-- The access functions built in the reduction body (MatMul.cpp 69-97). -/
def accessFcts (aRank outerLoopNum : Nat) (aPadDims bPadDims : List Bool)
    (outerIndices : List Nat) (k : Nat) : Option (List Nat × List Nat) :=
  (List.range aRank).foldlM (accessStep aRank outerLoopNum aPadDims bPadDims outerIndices k)
    ([], [])

/-- Modelled from the spec: the iteration space of `krnl.iterate`, which is not
among the sources: every index tuple below the upper bounds, lower bounds 0,
the first loop outermost. -/
def iterSpace : List Nat → List (List Nat)
  | [] => [[]]
  | ub :: ubs => (List.range ub).flatMap (fun i => (iterSpace ubs).map (fun t => i :: t))

/-- An access of the generic loop nest to one of its operand memrefs:
`krnl.load` on `A` (MatMul.cpp 99-100), `krnl.load` on `B` (101-102),
`krnl.store` on `alloc` (109). -/
inductive MatMulAccess (α : Type) where
  | loadA (aAccessFct : List Nat)
  | loadB (bAccessFct : List Nat)
  | storeAlloc (outerIndices : List Nat) (accumulated : α)

/-- The reduction of `replaceGenericMatmul` for one output index tuple
(MatMul.cpp 60-108): `reductionVal` starts at `fzero`, and for `k` from 0 to
`innerUb - 1` becomes `reductionVal + A[aAccessFct] * B[bAccessFct]`.  The
second component lists the loads from `A` and `B` in execution order. -/
def reduction {α : Type} (add mul : α → α → α) (fzero : α) (A B : Tensor α)
    (aRank outerLoopNum : Nat) (aPadDims bPadDims : List Bool) (innerUb : Nat)
    (outerIndices : List Nat) : Option (α × List (MatMulAccess α)) :=
  (List.range innerUb).foldlM (fun state k => do
    let fcts ← accessFcts aRank outerLoopNum aPadDims bPadDims outerIndices k
    pure (add state.1 (mul (A fcts.1) (B fcts.2)),
      state.2 ++ [MatMulAccess.loadA fcts.1, MatMulAccess.loadB fcts.2])) (fzero, [])

/-- Body of `replaceGenericMatmul` (MatMul.cpp 31-111).  `dimsForOutput` is
`shapeHelper.dimsForOutput(0)`, `aDims`, `aPadDims`, `bPadDims` are the padded
shape of `A` and the pad flags of the shape helper, all at their run-time
values.  The outer loops run over the output index tuples; each runs its
reduction loop and then stores the reduction at `alloc[outerIndices]`.  The
result is the output buffer together with the accesses to `A`, `B` and `alloc`
in execution order. -/
def replaceGenericMatmulRun {α : Type} (add mul : α → α → α) (fzero : α) (A B : Tensor α)
    (dimsForOutput aDims : List Nat) (aPadDims bPadDims : List Bool)
    (alloc : Tensor α) : Option (Tensor α × List (MatMulAccess α)) :=
  let outerLoopNum := dimsForOutput.length
  let aRank := aDims.length
  if aRank = 0 then none
  else
    match aDims[aRank - 1]? with
    | none => none
    | some innerUb =>
      (iterSpace dimsForOutput).foldlM (fun state outerIndices => do
        let reduced ← reduction add mul fzero A B aRank outerLoopNum aPadDims bPadDims
          innerUb outerIndices
        pure (Function.update state.1 outerIndices reduced.1,
          state.2 ++ (reduced.2 ++ [MatMulAccess.storeAlloc outerIndices reduced.1])))
        (alloc, [])

/-- The output buffer that `replaceGenericMatmul` leaves (MatMul.cpp 31-111):
the first component of `replaceGenericMatmulRun`. -/
def replaceGenericMatmul {α : Type} (add mul : α → α → α) (fzero : α) (A B : Tensor α)
    (dimsForOutput aDims : List Nat) (aPadDims bPadDims : List Bool)
    (alloc : Tensor α) : Option (Tensor α) :=
  (replaceGenericMatmulRun add mul fzero A B dimsForOutput aDims aPadDims bPadDims alloc).map
    Prod.fst

/-! ## TopK.cpp: `ONNXTopKOpShapeHelper::computeShape` -/

/-- A shape as a sequence of index expressions (`DimsExpr`). -/
abbrev DimsExpr := List IndexExpr

/-- The query `isUndefined()`. -/
def IndexExpr.isUndefined : IndexExpr → Bool
  | .undefined => true
  | _ => false

/-- The accessor `getLiteral()`.  It is meaningful on a literal only; the callers
below test `isLiteral()` first. -/
def IndexExpr.getLiteral : IndexExpr → Int
  | .literal v => v
  | _ => 0

/-- How a call of `computeShape` ends: `return success()`, `return
op->emitError(...)` (a failure result handed to the caller, with its
diagnostic), or a failed `assert`, which aborts the process and returns nothing
to the caller. -/
inductive ShapeResult where
  | success
  | failure (diagnostic : String)
  | assertFailed (message : String)
deriving DecidableEq, Repr

/-- The statement `axis = axis < 0 ? axis + rank : axis;` (TopK.cpp 36). -/
def normalizeAxis (axis rank : Int) : Int :=
  if axis < 0 then axis + rank else axis

/-- The loop of TopK.cpp 51-56: position `axis` gets `kIE`, every other position
`i` gets `XBounds.getDim(i)`. -/
def topKOutputDims (X : DimsExpr) (axis : Int) (kIE : IndexExpr) : DimsExpr :=
  (List.range X.length).map
    (fun i : Nat => if (i : Int) = axis then kIE else X.getD i IndexExpr.undefined)

/-- Body of `ONNXTopKOpShapeHelper::computeShape` (TopK.cpp 24-62), with
assertions enabled.  `X` is the shape of the operand X as `XBounds` captures it,
`axisAttr` is `op->axis()`, `kIE` is the symbol captured from the operand K, and
`outputsDims n` is the storage behind `dimsForOutput(n)` of the helper (the base
class is not among the sources).  The result is the outcome and the storage
after the call. -/
def ONNXTopKOpShapeHelper.computeShape (X : DimsExpr) (axisAttr : Int) (kIE : IndexExpr)
    (outputsDims : Nat → DimsExpr) : ShapeResult × (Nat → DimsExpr) :=
  let rank : Int := X.length
  let axis := normalizeAxis axisAttr rank
  if ¬ (axis ≥ 0 ∧ axis < rank) then (.assertFailed "axis is out of bound", outputsDims)
  else if kIE.isUndefined then
    (.failure "K input parameter could not be processed", outputsDims)
  else
    let dimAxis := X.getD axis.toNat IndexExpr.undefined
    if (kIE.isLiteral && dimAxis.isLiteral) && decide (kIE.getLiteral ≥ dimAxis.getLiteral) then
      (.failure "K value is out of bound", outputsDims)
    else
      let outputDims := topKOutputDims X axis kIE
      (.success, Function.update outputsDims 0 outputDims)

/-! ## Slice.cpp: `ONNXSliceOpLowering::matchAndRewrite` -/

/-- One step of the loop `for (ii = 0; ii < outputRank; ++ii)` of Slice.cpp 58-65
on the pair `(loadIndices, storeIndices)`: the load index is
`step * inductionIndex + start`, the store index is the induction index.
`starts` and `steps` are the vectors of the shape helper; a read past the end of
one of them yields `none`. -/
def sliceIndexStep (starts steps inductionVars : List Int) (acc : List Int × List Int)
    (ii : Nat) : Option (List Int × List Int) := do
  let inductionIndex ← inductionVars[ii]?
  let start ← starts[ii]?
  let step ← steps[ii]?
  pure (acc.1 ++ [(step * inductionIndex) + start], acc.2 ++ [inductionIndex])

/-- The vectors `loadIndices` and `storeIndices` of Slice.cpp 53-65 for one
tuple of induction variables. -/
def sliceIndices (starts steps : List Int) (outputRank : Nat) (inductionVars : List Int) :
    Option (List Int × List Int) :=
  (List.range outputRank).foldlM (sliceIndexStep starts steps inductionVars) ([], [])

/-- The loop nest emitted by `ONNXSliceOpLowering::matchAndRewrite` (Slice.cpp
43-68), run on the operand `data`: for every tuple of induction variables below
the bounds `dimsForOutput`, the value loaded at `loadIndices` is stored in
`alloc` at `storeIndices`.  The result also lists the pairs
`(loadIndices, storeIndices)` in the order of execution. -/
def ONNXSliceOpLowering.matchAndRewrite {α : Type} (data : List Int → α)
    (starts steps : List Int) (dimsForOutput : List Nat) (alloc : List Int → α) :
    Option ((List Int → α) × List (List Int × List Int)) :=
  let outputRank := dimsForOutput.length
  (iterSpace dimsForOutput).foldlM (fun state inductionVars => do
    let indices ← sliceIndices starts steps outputRank
      (inductionVars.map (fun v : Nat => (v : Int)))
    pure (Function.update state.1 indices.2 (data indices.1), state.2 ++ [indices]))
    (alloc, [])

/-! ## OMTensor.h: constructor and destructor -/

/-- The fields of `struct OMTensor` (OMTensor.h 89-100).  A pointer is an
address, 0 for `NULL`; `_name` is `none` as long as it has not been assigned. -/
structure OMTensor where
  _data : Nat
  _alignedData : Nat
  _offset : Int
  _dataSizes : Nat
  _dataStrides : Nat
  _dataType : Int
  _rank : Int
  _name : Option Nat
  _owningData : Bool
deriving DecidableEq, Repr

/-- The constructor `OMTensor(int rank)` (OMTensor.h 59-72).  `mallocSizes` and
`mallocStrides` are what the two `malloc` calls return (0 on failure),
`undefinedType` is `ONNX_TYPE_UNDEFINED`, a constant of a header that is not
among the sources.  When a `malloc` fails the constructor throws. -/
def OMTensor.create (rank : Int) (mallocSizes mallocStrides : Nat) (undefinedType : Int) :
    Except String OMTensor :=
  if mallocSizes ≠ 0 ∧ mallocStrides ≠ 0 then
    .ok { _data := 0
          _alignedData := 0
          _offset := 0
          _dataSizes := mallocSizes
          _dataStrides := mallocStrides
          _dataType := undefinedType
          _rank := rank
          _name := none
          _owningData := false }
  else
    .error ("OMTensor(" ++ toString rank ++ ") malloc error")

/-- The storage a `free` call releases, named by the field it is freed through. -/
inductive Released where
  | data
  | dataSizes
  | dataStrides
deriving DecidableEq, Repr

/-- The destructor `~OMTensor()` (OMTensor.h 81-86): the `free` calls it makes,
in order. -/
def OMTensor.destroy (omt : OMTensor) : List Released :=
  (if omt._owningData then [Released.data] else []) ++
    [Released.dataSizes, Released.dataStrides]

/-! ## MatMul.cpp: the loops of the generic path -/

/-- What the loop definition of `replaceGenericMatmul` sets up (MatMul.cpp
36-52).  A loop of `loopDef` is named by its position. -/
structure GenericLoops where
  totLoopNum : Nat
  loopLbs : DimsExpr
  loopUbs : DimsExpr
  outerLoops : List Nat
  innerLoop : Nat
deriving DecidableEq, Repr

/-- The loop definition of `replaceGenericMatmul` (MatMul.cpp 36-52):
`totLoopNum = outerLoopNum + 1` loops, all lower bounds `LiteralIndexExpr(0)`,
the upper bounds `dimsForOutput(0)[i]` for the outer loops followed by
`innerUb = aDims[aRank - 1]`; the outer loops are all but the last loop.
Reading `aDims[aRank - 1]` of an empty `aDims` yields `none`. -/
def genericLoops (dimsForOutput aDims : DimsExpr) : Option GenericLoops :=
  let outerLoopNum := dimsForOutput.length
  let totLoopNum := outerLoopNum + 1
  let loopLbs := List.replicate totLoopNum (IndexExpr.literal 0)
  let loopUbs := (List.range outerLoopNum).map
    (fun i => dimsForOutput.getD i IndexExpr.undefined)
  let outerLoops := List.range outerLoopNum
  let aRank := aDims.length
  if aRank = 0 then none
  else
    match aDims[aRank - 1]? with
    | none => none
    | some innerUb =>
      some { totLoopNum := totLoopNum
             loopLbs := loopLbs
             loopUbs := loopUbs ++ [innerUb]
             outerLoops := outerLoops
             innerLoop := totLoopNum - 1 }

/-! ## 64-bit integer arithmetic -/

theorem wrapInt64_of_fits (x : Int) (h : fitsInt64 x) : wrapInt64 x = x := by
  unfold wrapInt64
  obtain ⟨h1, h2⟩ := h
  omega

theorem wrapInt64_modEq (x : Int) : wrapInt64 x ≡ x [ZMOD 18446744073709551616] := by
  unfold wrapInt64
  have h := (Int.mod_modEq (x + 9223372036854775808) 18446744073709551616).sub_right
    9223372036854775808
  simpa using h

theorem wrapInt64_congr (a b : Int) (h : a ≡ b [ZMOD 18446744073709551616]) :
    wrapInt64 a = wrapInt64 b := by
  unfold wrapInt64
  have h2 : (a + 9223372036854775808) % 18446744073709551616 =
      (b + 9223372036854775808) % 18446744073709551616 := h.add_right _
  rw [h2]

theorem wrapInt64_one : wrapInt64 1 = 1 := by decide

theorem wrapInt64_zero : wrapInt64 0 = 0 := by decide

/-- A product with a wrapped factor wraps to the same value as the exact
product. -/
theorem mulInt64_wrap_left (a b : Int) : mulInt64 (wrapInt64 a) b = wrapInt64 (a * b) := by
  unfold mulInt64
  exact wrapInt64_congr _ _ ((wrapInt64_modEq a).mul_right b)

theorem addInt64_wrap_mul (c x y : Int) :
    addInt64 (wrapInt64 c) (mulInt64 x y) = wrapInt64 (c + x * y) := by
  unfold addInt64 mulInt64
  exact wrapInt64_congr _ _ ((wrapInt64_modEq c).add (wrapInt64_modEq (x * y)))

/-! ## Row-major strides: `computeStridesFromSizes` -/

theorem foldl_mulInt64 (l : List Int) (c : Int) :
    l.foldl mulInt64 (wrapInt64 c) = wrapInt64 (c * l.prod) := by
  induction l generalizing c with
  | nil => simp
  | cons x xs ih =>
    simp only [List.foldl_cons, List.prod_cons]
    rw [mulInt64_wrap_left, ih, mul_assoc]

/-- The 64-bit loop of `getNumOfElems` leaves the exact product of the sizes,
wrapped once. -/
theorem getNumOfElems_wrap (l : List Int) : getNumOfElems l = wrapInt64 l.prod := by
  have h := foldl_mulInt64 l 1
  rw [wrapInt64_one, one_mul] at h
  exact h

theorem partialSumLoop_append (op : Int → Int → Int) (sum : Int) (l : List Int) (y : Int) :
    partialSumLoop op sum (l ++ [y]) = partialSumLoop op sum l ++ [op (l.foldl op sum) y] := by
  induction l generalizing sum with
  | nil => simp [partialSumLoop]
  | cons x xs ih => simp [partialSumLoop, ih]

/-- Reading the shifted sizes from the back and writing from the back leaves,
at each position, the 64-bit value of the product of the sizes to its right. -/
theorem partial_sum_suffixes (T : List Int) :
    (partial_sum mulInt64 (T ++ [1]).reverse).reverse =
      T.tails.map (fun s => wrapInt64 s.prod) := by
  induction T with
  | nil => simp [partial_sum, partialSumLoop, wrapInt64_one]
  | cons t T ih =>
    have h1 : (t :: T ++ [1]).reverse = 1 :: (T.reverse ++ [t]) := by simp
    have h2 : (T ++ [1]).reverse = 1 :: T.reverse := by simp
    rw [h2] at ih
    rw [h1]
    simp only [partial_sum] at ih ⊢
    have hf : T.reverse.foldl mulInt64 1 = wrapInt64 T.prod := by
      have h := foldl_mulInt64 T.reverse 1
      rw [wrapInt64_one, one_mul, List.prod_reverse] at h
      exact h
    rw [partialSumLoop_append, hf, mulInt64_wrap_left]
    have hsplit :
        (1 :: (partialSumLoop mulInt64 1 T.reverse ++ [wrapInt64 (T.prod * t)]))
          = (1 :: partialSumLoop mulInt64 1 T.reverse) ++ [wrapInt64 (T.prod * t)] := by
      simp
    rw [hsplit, List.reverse_append, ih]
    simp [mul_comm]

theorem computeStridesFromSizes_cons (x : Int) (T : List Int) :
    computeStridesFromSizes (x :: T) = some (T.tails.map (fun s => wrapInt64 s.prod)) := by
  have hv : vectorOfRange (x :: T) 1 (x :: T).length = some T := by
    simp [vectorOfRange]
  have hlen : (partial_sum mulInt64 (T ++ [1]).reverse).length = (x :: T).length := by
    have hl := congrArg List.length (partial_sum_suffixes T)
    simpa using hl
  unfold computeStridesFromSizes
  simp only [hv, hlen, le_refl, if_true, Nat.sub_self, List.replicate_zero, List.append_nil]
  rw [partial_sum_suffixes]

/-- C1: for a size sequence of rank at least 1, `computeStridesFromSizes`
returns `rank` strides and the last stride is 1.  The stride of dimension `i`
is the 64-bit value of the product of the sizes strictly to the right of `i`;
whenever that product fits in `int64_t`, the stride is the product itself. -/
theorem computeStridesFromSizes_rowMajor (dataSizes : List Int)
    (hrank : 1 ≤ dataSizes.length) :
    ∃ strides, computeStridesFromSizes dataSizes = some strides ∧
      strides.length = dataSizes.length ∧
      strides[dataSizes.length - 1]? = some 1 ∧
      (∀ i, i < dataSizes.length →
        strides[i]? = some (wrapInt64 (dataSizes.drop (i + 1)).prod)) ∧
      (∀ i, i < dataSizes.length → fitsInt64 (dataSizes.drop (i + 1)).prod →
        strides[i]? = some (dataSizes.drop (i + 1)).prod) := by
  cases dataSizes with
  | nil => simp at hrank
  | cons x T =>
    have hall : ∀ i, i < (x :: T).length →
        (T.tails.map (fun s => wrapInt64 s.prod))[i]? =
          some (wrapInt64 ((x :: T).drop (i + 1)).prod) := by
      intro i hi
      have hi' : i < T.tails.length := by simpa using hi
      simp [List.getElem?_map, List.getElem?_eq_getElem hi']
    refine ⟨_, computeStridesFromSizes_cons x T, by simp, ?_, hall, ?_⟩
    · simp [List.getElem?_map, List.getElem?_eq_getElem, wrapInt64_one]
    · intro i hi hfit
      rw [hall i hi, wrapInt64_of_fits _ hfit]

/-- Witness of C1 at the shape (2, 3, 4), whose strides are (12, 4, 1). -/
theorem computeStridesFromSizes_rowMajor_witness :
    ∃ strides, computeStridesFromSizes [2, 3, 4] = some strides ∧
      strides.length = 3 ∧ strides[2]? = some 1 ∧
      (∀ i, i < 3 → strides[i]? = some (wrapInt64 (([2, 3, 4] : List Int).drop (i + 1)).prod)) ∧
      (∀ i, i < 3 → fitsInt64 (([2, 3, 4] : List Int).drop (i + 1)).prod →
        strides[i]? = some (([2, 3, 4] : List Int).drop (i + 1)).prod) :=
  computeStridesFromSizes_rowMajor [2, 3, 4] (by decide)

/-- C6 at rank 0: the range `[dataSizes + 1, dataSizes + 0)` handed to the
vector constructor is not a valid range, so the call has no defined result; no
empty stride sequence is returned. -/
theorem computeStridesFromSizes_rank_zero :
    vectorOfRange [] 1 0 = none ∧ computeStridesFromSizes [] = none := by
  decide

/-! ## Element count: `getNumOfElems` -/

/-- C3: `getNumOfElems` returns the 64-bit value of the product of the sizes:
the product itself whenever it fits in `int64_t`; it is 1 at rank 0 and 0 as
soon as one size is 0. -/
theorem getNumOfElems_eq_prod (dataSizes : List Int) :
    getNumOfElems dataSizes = wrapInt64 dataSizes.prod ∧
      (fitsInt64 dataSizes.prod → getNumOfElems dataSizes = dataSizes.prod) ∧
      getNumOfElems [] = 1 ∧
      (0 ∈ dataSizes → getNumOfElems dataSizes = 0) := by
  refine ⟨getNumOfElems_wrap _, fun hfit => ?_, by decide, fun h0 => ?_⟩
  · rw [getNumOfElems_wrap, wrapInt64_of_fits _ hfit]
  · rw [getNumOfElems_wrap, List.prod_eq_zero h0, wrapInt64_zero]

/-- Witness of C3 at the sizes (2, 5, 3), whose product 30 fits, and at the
sizes (2, 0, 3), which contain a 0. -/
theorem getNumOfElems_eq_prod_witness :
    getNumOfElems [2, 5, 3] = 30 ∧ getNumOfElems [2, 0, 3] = 0 :=
  ⟨((getNumOfElems_eq_prod [2, 5, 3]).2.1 (by decide)).trans (by decide),
    (getNumOfElems_eq_prod [2, 0, 3]).2.2.2 (by decide)⟩

/-! ## Linear offsets: `computeElemOffset` -/

theorem zipWith_mul_sum_eq_finset (indexes strides : List Int)
    (hlen : indexes.length = strides.length) :
    (List.zipWith (fun a b => a * b) indexes strides).sum =
      ∑ i in Finset.range strides.length, indexes.getD i 0 * strides.getD i 0 := by
  induction indexes generalizing strides with
  | nil =>
    cases strides with
    | nil => simp
    | cons y ys => simp at hlen
  | cons x xs ih =>
    cases strides with
    | nil => simp at hlen
    | cons y ys =>
      simp only [List.length_cons, Nat.add_right_cancel_iff] at hlen
      simp only [List.zipWith_cons_cons, List.sum_cons, List.length_cons]
      rw [ih ys hlen, Finset.sum_range_succ']
      simp [add_comm]

/-- The 64-bit accumulation of `inner_product` leaves the exact sum of the
products, wrapped once. -/
theorem inner_product_wrap (indexes strides : List Int) (c : Int)
    (hlen : indexes.length = strides.length) :
    inner_product indexes strides (wrapInt64 c) =
      some (wrapInt64 (c + (List.zipWith (fun a b => a * b) indexes strides).sum)) := by
  induction indexes generalizing strides c with
  | nil => simp [inner_product]
  | cons x xs ih =>
    cases strides with
    | nil => simp at hlen
    | cons y ys =>
      simp only [List.length_cons, Nat.add_right_cancel_iff] at hlen
      simp only [inner_product, addInt64_wrap_mul]
      rw [ih ys _ hlen]
      simp [add_assoc]

theorem computeElemOffset_wrap (dataStrides indexes : List Int)
    (hlen : indexes.length = dataStrides.length) :
    computeElemOffset dataStrides indexes =
      some (wrapInt64 (∑ i in Finset.range dataStrides.length,
        indexes.getD i 0 * dataStrides.getD i 0)) := by
  unfold computeElemOffset
  have h := inner_product_wrap indexes dataStrides 0 hlen
  rw [wrapInt64_zero, zero_add, zipWith_mul_sum_eq_finset indexes dataStrides hlen] at h
  exact h

/-- C4: for strides and indexes of the same length `rank`, `computeElemOffset`
returns the 64-bit value of the sum over `i < rank` of
`indexes[i] * strides[i]`: the sum itself whenever it fits in `int64_t`. -/
theorem computeElemOffset_eq_sum (dataStrides indexes : List Int)
    (hlen : indexes.length = dataStrides.length) :
    computeElemOffset dataStrides indexes =
        some (wrapInt64 (∑ i in Finset.range dataStrides.length,
          indexes.getD i 0 * dataStrides.getD i 0)) ∧
      (fitsInt64 (∑ i in Finset.range dataStrides.length,
          indexes.getD i 0 * dataStrides.getD i 0) →
        computeElemOffset dataStrides indexes =
          some (∑ i in Finset.range dataStrides.length,
            indexes.getD i 0 * dataStrides.getD i 0)) := by
  refine ⟨computeElemOffset_wrap _ _ hlen, fun hfit => ?_⟩
  rw [computeElemOffset_wrap _ _ hlen, wrapInt64_of_fits _ hfit]

/-- Witness of C4: strides (12, 4, 1), indexes (1, 2, 3), offset 23. -/
theorem computeElemOffset_eq_sum_witness :
    computeElemOffset [12, 4, 1] [1, 2, 3] = some 23 :=
  ((computeElemOffset_eq_sum [12, 4, 1] [1, 2, 3] (by decide)).2 (by decide)).trans (by decide)

/-- C5 fails on the code: for the sizes (2, 3), whose strides are (3, 1), the
index tuple (0, 5) has its second index outside `[0, 3)`, and the offset
computation returns the linear offset 5 (the offset of the element (1, 2))
without any error. -/
theorem computeElemOffset_accepts_out_of_bounds :
    computeStridesFromSizes [2, 3] = some [3, 1] ∧
      (∃ i, i < 2 ∧ (([0, 5] : List Int).getD i 0 < 0 ∨
        ([2, 3] : List Int).getD i 0 ≤ ([0, 5] : List Int).getD i 0)) ∧
      computeElemOffset [3, 1] [0, 5] = some 5 ∧
      computeElemOffset [3, 1] [1, 2] = some 5 := by
  refine ⟨by decide, ⟨1, by decide, Or.inr (by decide)⟩, by decide, by decide⟩

/-- C5 as amended: the offset computation takes no sizes and checks no bound.
For every index tuple of length `rank` in which some index lies outside
`[0, sizes[i])` it still returns a linear offset, the 64-bit value of the sum of
`indexes[i] * strides[i]` over the indexes as given (no clamping), which is the
sum itself whenever it fits in `int64_t`. -/
theorem computeElemOffset_unchecked (dataSizes dataStrides indexes : List Int)
    (_hsizes : dataSizes.length = dataStrides.length)
    (hlen : indexes.length = dataStrides.length)
    (_hout : ∃ i, i < dataSizes.length ∧
      (indexes.getD i 0 < 0 ∨ dataSizes.getD i 0 ≤ indexes.getD i 0)) :
    computeElemOffset dataStrides indexes =
        some (wrapInt64 (∑ i in Finset.range dataStrides.length,
          indexes.getD i 0 * dataStrides.getD i 0)) ∧
      (fitsInt64 (∑ i in Finset.range dataStrides.length,
          indexes.getD i 0 * dataStrides.getD i 0) →
        computeElemOffset dataStrides indexes =
          some (∑ i in Finset.range dataStrides.length,
            indexes.getD i 0 * dataStrides.getD i 0)) := by
  refine ⟨computeElemOffset_wrap _ _ hlen, fun hfit => ?_⟩
  rw [computeElemOffset_wrap _ _ hlen, wrapInt64_of_fits _ hfit]

/-- Witness of the amended C5: sizes (2, 3), strides (3, 1), indexes (0, -1). -/
theorem computeElemOffset_unchecked_witness :
    computeElemOffset [3, 1] [0, -1] = some (-1) :=
  ((computeElemOffset_unchecked [2, 3] [3, 1] [0, -1] (by decide) (by decide)
    ⟨1, by decide, Or.inl (by decide)⟩).2 (by decide)).trans (by decide)

/-! ## Row-major enumeration: `CartProduct` and `computeElemOffset` -/

/-- Strides that were wrapped give the same offset modulo 2^64 as the exact
strides. -/
theorem zipWith_wrap_modEq (x s : List Int) :
    (List.zipWith (fun a b => a * b) x (s.map wrapInt64)).sum ≡
      (List.zipWith (fun a b => a * b) x s).sum [ZMOD 18446744073709551616] := by
  induction x generalizing s with
  | nil => simp only [List.zipWith_nil_left]; exact Int.ModEq.refl _
  | cons a x ih =>
    cases s with
    | nil => simp only [List.map_nil, List.zipWith_nil_right]; exact Int.ModEq.refl _
    | cons b s =>
      simp only [List.map_cons, List.zipWith_cons_cons, List.sum_cons]
      exact ((wrapInt64_modEq b).mul_left a).add (ih s)

theorem zipWith_mul_scale (x s : List Int) (n : Int) :
    (List.zipWith (fun a b => a * b) x (s.map (fun c => c * n))).sum =
      (List.zipWith (fun a b => a * b) x s).sum * n := by
  induction x generalizing s with
  | nil => simp
  | cons a x ih =>
    cases s with
    | nil => simp
    | cons b s => simp [ih, add_mul, mul_assoc]

theorem CartProduct_append (V : List (List Int)) (u : List Int) :
    CartProduct (V ++ [u]) = (CartProduct V).flatMap (fun x => u.map (fun y => x ++ [y])) := by
  simp [CartProduct, List.foldl_append]

theorem CartProduct_length_mem (V : List (List Int)) :
    ∀ x ∈ CartProduct V, x.length = V.length := by
  induction V using List.reverseRecOn with
  | nil => simp [CartProduct]
  | append_singleton V u ih =>
    intro x hx
    rw [CartProduct_append] at hx
    simp only [List.mem_flatMap, List.mem_map] at hx
    obtain ⟨x0, hx0, y, _, rfl⟩ := hx
    simp [ih x0 hx0]

theorem range_flatMap_block (P n : Nat) :
    (List.range P).flatMap (fun q => (List.range n).map (fun y => q * n + y)) =
      List.range (P * n) := by
  induction P with
  | zero => simp
  | succ P ih =>
    rw [List.range_succ, List.flatMap_append, ih]
    simp only [List.flatMap_cons, List.flatMap_nil, List.append_nil]
    rw [List.range_eq_range' (n := (P + 1) * n), List.range_eq_range' (n := P * n),
      List.range_eq_range' (n := n)]
    have hsum : (P + 1) * n = n + P * n := by ring
    rw [hsum, ← List.range'_append 0 (P * n) n 1]
    congr 1
    rw [List.map_add_range']
    simp

theorem tails_tail_append_singleton (S : List Int) (n : Int) :
    ((S ++ [n]).tails.tail.map List.prod) =
      (S.tails.tail.map List.prod).map (fun c => c * n) ++ [1] := by
  rw [List.tails_append]
  cases S with
  | nil => simp
  | cons a S => simp [List.tails, Function.comp_def]

/-- Adding one innermost dimension of size `n` multiplies every earlier offset
by `n` and adds the new index, so the offsets stay the contiguous range. -/
theorem rowMajor_dot_enumerate (S : List Nat) :
    (CartProduct (S.map indexRange)).map
        (fun x => (List.zipWith (fun a b => a * b) x
          ((S.map (fun d : Nat => (d : Int))).tails.tail.map List.prod)).sum) =
      indexRange S.prod := by
  induction S using List.reverseRecOn with
  | nil => rfl
  | append_singleton S n ih =>
    rw [List.map_append, List.map_append, List.map_singleton, List.map_singleton,
      CartProduct_append, tails_tail_append_singleton, List.map_flatMap]
    have hstep : ∀ x ∈ CartProduct (S.map indexRange),
        List.map (fun x => (List.zipWith (fun a b => a * b) x
          (((S.map (fun d : Nat => (d : Int))).tails.tail.map List.prod).map
            (fun c => c * (n : Int)) ++ [1])).sum)
          ((indexRange n).map (fun y => x ++ [y])) =
        (indexRange n).map (fun y => (List.zipWith (fun a b => a * b) x
          ((S.map (fun d : Nat => (d : Int))).tails.tail.map List.prod)).sum * (n : Int) + y) := by
      intro x hx
      have hl := CartProduct_length_mem _ x hx
      rw [List.map_map]
      apply List.map_congr_left
      intro y _
      simp only [Function.comp]
      rw [List.zipWith_append _ _ _ _ _ (by simp [hl]), List.sum_append, zipWith_mul_scale]
      simp
    rw [List.flatMap_congr hstep]
    have hmap : ∀ (L : List (List Int)) (g : List Int → Int),
        L.flatMap (fun x => (indexRange n).map (fun y => g x * (n : Int) + y)) =
          (L.map g).flatMap (fun q => (indexRange n).map (fun y => q * (n : Int) + y)) := by
      intro L g
      exact (List.flatMap_map g (fun q => (indexRange n).map (fun y => q * (n : Int) + y)) L).symm
    rw [hmap, ih, List.prod_append, List.prod_singleton]
    simp only [indexRange]
    rw [← range_flatMap_block, List.map_flatMap, List.flatMap_map]
    simp [List.map_map, Function.comp_def]

theorem indexRange_pairwise (n : Nat) : (indexRange n).Pairwise (fun a b => a < b) := by
  unfold indexRange
  rw [List.pairwise_map]
  exact (List.pairwise_lt_range n).imp (fun h => by exact_mod_cast h)

theorem indexRange_mem_fits (n : Nat) (hfit : fitsInt64 ((n : Nat) : Int)) :
    ∀ e ∈ indexRange n, fitsInt64 e := by
  intro e he
  simp only [indexRange, List.mem_map, List.mem_range] at he
  obtain ⟨i, hi, rfl⟩ := he
  obtain ⟨_, h2⟩ := hfit
  constructor <;> omega

/-- C2: for a shape `S` of rank at least 1 whose number of elements fits in
`int64_t`, mapping the row-major enumeration of the index tuples of `S` through
`computeElemOffset` with the strides `computeStridesFromSizes S` gives exactly
0, 1, ..., `getNumOfElems S - 1`: strictly increasing, no gap, no overlap, and
the largest offset is `getNumOfElems S - 1`, where `getNumOfElems S` is the
product of the sizes. -/
theorem rowMajor_offsets_contiguous (S : List Nat) (hrank : 1 ≤ S.length)
    (hfit : fitsInt64 ((S.prod : Nat) : Int)) :
    ∃ strides offsets,
      computeStridesFromSizes (S.map (fun d : Nat => (d : Int))) = some strides ∧
      getNumOfElems (S.map (fun d : Nat => (d : Int))) = ((S.prod : Nat) : Int) ∧
      (CartProduct (S.map indexRange)).map (computeElemOffset strides) = offsets.map some ∧
      offsets = indexRange (getNumOfElems (S.map (fun d : Nat => (d : Int)))).toNat ∧
      offsets.Pairwise (fun a b => a < b) ∧
      (offsets ≠ [] →
        offsets.getLast? = some (getNumOfElems (S.map (fun d : Nat => (d : Int))) - 1)) := by
  have hcast : (S.map (fun d : Nat => (d : Int))).prod = ((S.prod : Nat) : Int) := by
    induction S with
    | nil => simp
    | cons a S ih => simp
  have hN : getNumOfElems (S.map (fun d : Nat => (d : Int))) = ((S.prod : Nat) : Int) := by
    rw [getNumOfElems_wrap, hcast, wrapInt64_of_fits _ hfit]
  cases S with
  | nil => simp at hrank
  | cons d T =>
    refine ⟨_, _, computeStridesFromSizes_cons _ _, hN, ?_, rfl, indexRange_pairwise _, ?_⟩
    · rw [hN, Int.toNat_ofNat]
      have hexact := rowMajor_dot_enumerate (d :: T)
      have hoff : ∀ x ∈ CartProduct ((d :: T).map indexRange),
          computeElemOffset ((T.map (fun d : Nat => (d : Int))).tails.map
              (fun s => wrapInt64 s.prod)) x =
            some (wrapInt64 ((List.zipWith (fun a b => a * b) x
              (((d :: T).map (fun d : Nat => (d : Int))).tails.tail.map List.prod)).sum)) := by
        intro x hx
        have hl := CartProduct_length_mem _ x hx
        have hmap : (T.map (fun d : Nat => (d : Int))).tails.map (fun s => wrapInt64 s.prod) =
            (((d :: T).map (fun d : Nat => (d : Int))).tails.tail.map List.prod).map
              wrapInt64 := by
          simp [List.map_map, Function.comp_def]
        unfold computeElemOffset
        have h := inner_product_wrap x ((T.map (fun d : Nat => (d : Int))).tails.map
          (fun s => wrapInt64 s.prod)) 0 (by simpa using hl)
        rw [wrapInt64_zero, zero_add] at h
        rw [h, hmap]
        exact congrArg some (wrapInt64_congr _ _ (zipWith_wrap_modEq _ _))
      rw [List.map_congr_left hoff]
      have hcomp : (CartProduct ((d :: T).map indexRange)).map
          (fun x => some (wrapInt64 ((List.zipWith (fun a b => a * b) x
            (((d :: T).map (fun d : Nat => (d : Int))).tails.tail.map List.prod)).sum))) =
          (((CartProduct ((d :: T).map indexRange)).map
            (fun x => (List.zipWith (fun a b => a * b) x
              (((d :: T).map (fun d : Nat => (d : Int))).tails.tail.map List.prod)).sum)).map
            wrapInt64).map some := by
        simp [List.map_map, Function.comp_def]
      rw [hcomp, hexact]
      congr 1
      have hid : ∀ e ∈ indexRange (d :: T).prod, wrapInt64 e = id e :=
        fun e he => wrapInt64_of_fits e (indexRange_mem_fits _ hfit e he)
      rw [List.map_congr_left hid, List.map_id]
    · rw [hN, Int.toNat_ofNat]
      intro hne
      cases hp : (d :: T).prod with
      | zero => simp [hp, indexRange] at hne
      | succ m => simp [indexRange, List.range_succ]

/-- Witness of C2 at the shape (2, 3): the six index tuples get the offsets
0, 1, 2, 3, 4, 5. -/
theorem rowMajor_offsets_contiguous_witness :
    ∃ strides offsets,
      computeStridesFromSizes [2, 3] = some strides ∧
      getNumOfElems [2, 3] = 6 ∧
      (CartProduct [[0, 1], [0, 1, 2]]).map (computeElemOffset strides) = offsets.map some ∧
      offsets = [0, 1, 2, 3, 4, 5] ∧
      offsets.Pairwise (fun a b => a < b) ∧
      (offsets ≠ [] → offsets.getLast? = some (6 - 1)) :=
  rowMajor_offsets_contiguous [2, 3] (by decide) (by decide)

/-! ## MatMul.cpp: dispatch -/

/-- C7: the lowering takes the specialized dense path if and only if operand A
has rank 2 and operand B has rank 2; for every other pair of operand ranks it
takes the generic path. -/
theorem matchAndRewrite_dense_iff (aRank bRank : Nat) :
    (matchAndRewrite aRank bRank = MatMulPath.dense2d ↔ aRank = 2 ∧ bRank = 2) ∧
      (matchAndRewrite aRank bRank = MatMulPath.generic ↔ ¬ (aRank = 2 ∧ bRank = 2)) := by
  unfold matchAndRewrite
  by_cases h : aRank = 2 ∧ bRank = 2
  · simp [h]
  · simp [h]

/-! ## MatMul.cpp: tile selection -/

theorem regTiles_iRegTile (dimI dimJ dimK : IndexExpr) :
    (regTiles dimI dimJ dimK).iRegTile =
      match dimI with
      | .literal constI => if constI < 4 then constI else 4
      | _ => 4 := by
  cases dimI <;> rfl

theorem regTiles_kRegTile (dimI dimJ dimK : IndexExpr) :
    (regTiles dimI dimJ dimK).kRegTile =
      match dimK with
      | .literal constK => if constK < 8 then constK else 8
      | _ => 8 := by
  cases dimK <;> rfl

theorem regTiles_jRegTile (dimI dimJ dimK : IndexExpr) :
    (regTiles dimI dimJ dimK).jRegTile =
      match dimJ with
      | .literal constJ =>
        if constJ.tmod 8 ≠ 0 ∧ constJ.tmod 4 = 0 ∧ constJ ≤ 32 then 4 else 8
      | _ => 8 := by
  cases dimJ <;> rfl

/-- C8 fails on the code for the column dimension: a literal J = 5 is smaller
than the default block size 8, and the block size chosen for J is 8, not 5. -/
theorem regTiles_jRegTile_five :
    (5 : Int) < 8 ∧
      (regTiles (.literal 4) (.literal 5) (.literal 3)).jRegTile = 8 ∧
      (regTiles (.literal 4) (.literal 5) (.literal 3)).jRegTile ≠ 5 := by
  decide

/-- C8 as amended: for the dimensions I and K (defaults 4 and 8), a literal
dimension smaller than its default block size gets the exact dimension size as
block size.  For J (default 8) a literal size `0 ≤ J < 8` gets the block size J
only when `J = 4`. -/
theorem regTiles_small_literal (constI constJ constK : Int) (dimI dimJ dimK : IndexExpr) :
    (constI < 4 → (regTiles (.literal constI) dimJ dimK).iRegTile = constI) ∧
      (constK < 8 → (regTiles dimI dimJ (.literal constK)).kRegTile = constK) ∧
      (0 ≤ constJ → constJ < 8 →
        ((regTiles dimI (.literal constJ) dimK).jRegTile = constJ ↔ constJ = 4)) := by
  refine ⟨fun h => ?_, fun h => ?_, fun h0 h8 => ?_⟩
  · rw [regTiles_iRegTile]; simp [h]
  · rw [regTiles_kRegTile]; simp [h]
  · rw [regTiles_jRegTile]
    simp only
    have hcases : constJ = 0 ∨ constJ = 1 ∨ constJ = 2 ∨ constJ = 3 ∨ constJ = 4 ∨
        constJ = 5 ∨ constJ = 6 ∨ constJ = 7 := by omega
    rcases hcases with h | h | h | h | h | h | h | h <;> subst h <;> decide

/-- Witness of the amended C8 at the literal sizes I = 3, J = 4, K = 3. -/
theorem regTiles_small_literal_witness :
    (regTiles (.literal 3) (.literal 4) (.literal 3)).iRegTile = 3 ∧
      (regTiles (.literal 3) (.literal 4) (.literal 3)).kRegTile = 3 ∧
      (regTiles (.literal 3) (.literal 4) (.literal 3)).jRegTile = 4 :=
  have h := regTiles_small_literal 3 4 3 (.literal 3) (.literal 4) (.literal 3)
  ⟨h.1 (by decide), h.2.1 (by decide), (h.2.2 (by decide) (by decide)).2 rfl⟩

/-- C9: the column block size is 4 exactly when J is a literal that 8 does not
divide, that 4 divides, and that is at most 32; otherwise it is the default 8.
In particular a literal J above 32, such as 36, keeps the block size 8. -/
theorem jRegTile_eq_four_iff (dimI dimJ dimK : IndexExpr) :
    ((regTiles dimI dimJ dimK).jRegTile = 4 ↔
        ∃ constJ, dimJ = .literal constJ ∧ ¬ (8 ∣ constJ) ∧ 4 ∣ constJ ∧ constJ ≤ 32) ∧
      ((regTiles dimI dimJ dimK).jRegTile ≠ 4 → (regTiles dimI dimJ dimK).jRegTile = 8) ∧
      (regTiles dimI (.literal 36) dimK).jRegTile = 8 ∧
      (∀ constJ : Int, 32 < constJ → (regTiles dimI (.literal constJ) dimK).jRegTile = 8) := by
  refine ⟨?_, ?_, ?_, ?_⟩
  · rw [regTiles_jRegTile]
    cases dimJ with
    | undefined => simp
    | dynamic => simp
    | literal c =>
      simp only [IndexExpr.literal.injEq, exists_eq_left']
      rw [Int.dvd_iff_tmod_eq_zero, Int.dvd_iff_tmod_eq_zero]
      by_cases hc : c.tmod 8 ≠ 0 ∧ c.tmod 4 = 0 ∧ c ≤ 32
      · rw [if_pos hc]
        exact ⟨fun _ => ⟨hc.1, hc.2.1, hc.2.2⟩, fun _ => rfl⟩
      · rw [if_neg hc]
        constructor
        · intro h; exact absurd h (by decide)
        · intro h; exact absurd ⟨h.1, h.2.1, h.2.2⟩ hc
  · rw [regTiles_jRegTile]
    cases dimJ with
    | undefined => simp
    | dynamic => simp
    | literal c =>
      simp only
      split <;> simp
  · rw [regTiles_jRegTile]; decide
  · intro c hc
    rw [regTiles_jRegTile]
    simp only
    rw [if_neg]
    intro h
    omega

/-- Witness of C9: the literal J = 12 gets the block size 4, the literal J = 36
keeps 8. -/
theorem jRegTile_eq_four_iff_witness :
    (regTiles (.literal 4) (.literal 12) (.literal 3)).jRegTile = 4 ∧
      (regTiles (.literal 4) (.literal 36) (.literal 3)).jRegTile = 8 :=
  have h := jRegTile_eq_four_iff (.literal 4) (.literal 12) (.literal 3)
  have h36 := jRegTile_eq_four_iff (.literal 4) (.literal 36) (.literal 3)
  ⟨h.1.2 ⟨12, rfl, by decide, by decide, by decide⟩, h36.2.2.2 36 (by decide)⟩

/-! ## MatMul.cpp: the two loop nests compute the same elements -/

theorem foldl_read {α β : Type} (p : List Nat) (body : Tensor α → β → Tensor α)
    (e : α → β → α) (h : ∀ C x, body C x p = e (C p) x) (L : List β) (C : Tensor α) :
    (L.foldl body C) p = L.foldl e (C p) := by
  induction L generalizing C with
  | nil => rfl
  | cons x L ih => simp only [List.foldl_cons]; rw [ih, h]

theorem foldl_keep {α β : Type} (L : List β) (a : α) : L.foldl (fun a _ => a) a = a := by
  induction L with
  | nil => rfl
  | cons x L ih => simp [ih]

theorem foldl_range'_select {α : Type} (F : α → α) (x0 s n : Nat) (a : α) :
    (List.range' s n).foldl (fun a x => if x = x0 then F a else a) a =
      if s ≤ x0 ∧ x0 < s + n then F a else a := by
  induction n generalizing s a with
  | zero =>
    have hf : ¬ (s ≤ x0 ∧ x0 < s + 0) := by omega
    rw [if_neg hf]
    rfl
  | succ n ih =>
    rw [List.range'_succ, List.foldl_cons, ih]
    by_cases hs : s = x0
    · subst hs
      have h1 : ¬ (s + 1 ≤ s ∧ s < s + 1 + n) := by omega
      have h2 : s ≤ s ∧ s < s + (n + 1) := by omega
      simp [h1, h2]
    · by_cases hc : s + 1 ≤ x0 ∧ x0 < s + 1 + n
      · have h2 : s ≤ x0 ∧ x0 < s + (n + 1) := by omega
        simp [hs, hc, h2]
      · have h2 : ¬ (s ≤ x0 ∧ x0 < s + (n + 1)) := by omega
        simp [hs, hc, h2]

/-- What one run of the kernel leaves at the element `(i, j)`. -/
theorem krnlMatmul_read {α : Type} (add mul : α → α → α) (A B : Tensor α) (I J K : Nat)
    (iTile jTile kTile i1 j1 k1 : Nat) (C : Tensor α) (i j : Nat) :
    (krnlMatmul add mul A B I J K iTile jTile kTile i1 j1 k1 C) [i, j] =
      if i1 ≤ i ∧ i < i1 + (min (i1 + iTile) I - i1) then
        if j1 ≤ j ∧ j < j1 + (min (j1 + jTile) J - j1) then
          (tileRange k1 kTile K).foldl
            (fun acc k => add acc (mul (A [i, k]) (B [k, j]))) (C [i, j])
        else C [i, j]
      else C [i, j] := by
  unfold krnlMatmul
  rw [foldl_read [i, j] _
    (fun a i' => if i' = i then
      (if j1 ≤ j ∧ j < j1 + (min (j1 + jTile) J - j1) then
        (tileRange k1 kTile K).foldl (fun acc k => add acc (mul (A [i, k]) (B [k, j]))) a
       else a) else a)]
  · unfold tileRange
    rw [foldl_range'_select]
  · intro C i'
    rw [foldl_read [i, j] _
      (fun a j' => if j' = j then
        (if i' = i then
          (tileRange k1 kTile K).foldl (fun acc k => add acc (mul (A [i, k]) (B [k, j]))) a
         else a) else a)]
    · unfold tileRange
      rw [foldl_range'_select]
      by_cases hi : i' = i <;> simp [hi]
    · intro C j'
      rw [foldl_read [i, j] _
        (fun a k => if i' = i ∧ j' = j then add a (mul (A [i, k]) (B [k, j])) else a)]
      · by_cases hj : j' = j
        · by_cases hi : i' = i
          · simp [hi, hj]
          · simp [hi, hj, foldl_keep]
        · simp [hj, foldl_keep]
      · intro C k
        by_cases hij : i' = i ∧ j' = j
        · obtain ⟨rfl, rfl⟩ := hij
          simp
        · have hne : [i, j] ≠ [i', j'] := by
            intro h
            simp at h
            exact hij ⟨h.1.symm, h.2.symm⟩
          simp [hij, Function.update_noteq hne]

theorem range_append_tile (q t N : Nat) :
    List.range (min q N) ++ List.range' q (min (q + t) N - q) = List.range (min (q + t) N) := by
  by_cases hq : q ≤ N
  · have h1 : min q N = q := by omega
    have h2 : min (q + t) N = (min (q + t) N - q) + q := by omega
    rw [h1]
    conv_rhs => rw [h2]
    rw [List.range_eq_range', List.range_eq_range',
      ← List.range'_append 0 q (min (q + t) N - q) 1]
    simp
  · have h1 : min q N = N := by omega
    have h2 : min (q + t) N = N := by omega
    have h3 : N - q = 0 := by omega
    rw [h1, h2, h3]
    simp

theorem blocks_cover (N t : Nat) (ht : 0 < t ∨ N = 0) :
    min ((N + t - 1) / t * t) N = N := by
  rcases ht with ht | h0
  · have hlt := Nat.lt_div_mul_add (a := N + t - 1) ht
    omega
  · subst h0; simp

/-- The blocks of a blocked loop, visited in order, run through the whole range
once. -/
theorem blockStarts_foldl_tiles {α : Type} (g : α → Nat → α) (N t : Nat)
    (ht : 0 < t ∨ N = 0) (a : α) :
    (blockStarts N t).foldl (fun a k1 => (tileRange k1 t N).foldl g a) a =
      (List.range N).foldl g a := by
  have hm : ∀ m : Nat, ((List.range m).map (fun b => b * t)).foldl
      (fun a k1 => (tileRange k1 t N).foldl g a) a =
        (List.range (min (m * t) N)).foldl g a := by
    intro m
    induction m with
    | zero => simp
    | succ m ih =>
      rw [List.range_succ, List.map_append, List.foldl_append, ih]
      simp only [List.map_cons, List.map_nil, List.foldl_cons, List.foldl_nil]
      unfold tileRange
      rw [← List.foldl_append, range_append_tile, Nat.succ_mul]
  unfold blockStarts
  rw [hm, blocks_cover N t ht]

/-- An index below the bound lies in exactly one block. -/
theorem blockStarts_foldl_select {α : Type} (F : α → α) (x N t : Nat)
    (ht : 0 < t ∨ N = 0) (a : α) :
    (blockStarts N t).foldl
      (fun a x1 => if x1 ≤ x ∧ x < x1 + (min (x1 + t) N - x1) then F a else a) a =
      if x < N then F a else a := by
  have hm : ∀ m : Nat, ((List.range m).map (fun b => b * t)).foldl
      (fun a x1 => if x1 ≤ x ∧ x < x1 + (min (x1 + t) N - x1) then F a else a) a =
        if x < min (m * t) N then F a else a := by
    intro m
    induction m with
    | zero => simp
    | succ m ih =>
      rw [List.range_succ, List.map_append, List.foldl_append, ih]
      simp only [List.map_cons, List.map_nil, List.foldl_cons, List.foldl_nil]
      rw [Nat.succ_mul]
      generalize m * t = q
      by_cases h1 : x < min q N
      · have h2 : ¬ (q ≤ x ∧ x < q + (min (q + t) N - q)) := by omega
        have h3 : x < min (q + t) N := by omega
        simp [h1, h2, h3]
      · by_cases h2 : q ≤ x ∧ x < q + (min (q + t) N - q)
        · have h3 : x < min (q + t) N := by omega
          simp [h1, h2, h3]
        · have h3 : ¬ (x < min (q + t) N) := by omega
          simp [h1, h2, h3]
  unfold blockStarts
  rw [hm, blocks_cover N t ht]

/-- The blocked loop nest around the kernel, for any block sizes that are
positive wherever the dimension is not empty: the element `(i, j)` receives the
products for `k = 0, ..., K - 1` in ascending order. -/
theorem blockedNest_read {α : Type} (add mul : α → α → α) (A B : Tensor α) (I J K : Nat)
    (iTile jTile kTile : Nat) (hI : 0 < iTile ∨ I = 0) (hJ : 0 < jTile ∨ J = 0)
    (hK : 0 < kTile ∨ K = 0) (C : Tensor α) (i j : Nat) (hi : i < I) (hj : j < J) :
    ((blockStarts I iTile).foldl (fun C i1 =>
      (blockStarts J jTile).foldl (fun C j1 =>
        (blockStarts K kTile).foldl (fun C k1 =>
          krnlMatmul add mul A B I J K iTile jTile kTile i1 j1 k1 C) C) C) C) [i, j] =
      (List.range K).foldl (fun acc k => add acc (mul (A [i, k]) (B [k, j]))) (C [i, j]) := by
  rw [foldl_read [i, j] _
    (fun a i1 => if i1 ≤ i ∧ i < i1 + (min (i1 + iTile) I - i1) then
      (List.range K).foldl (fun acc k => add acc (mul (A [i, k]) (B [k, j]))) a else a)]
  · rw [blockStarts_foldl_select _ i I iTile hI, if_pos hi]
  · intro C i1
    rw [foldl_read [i, j] _
      (fun a j1 => if j1 ≤ j ∧ j < j1 + (min (j1 + jTile) J - j1) then
        (if i1 ≤ i ∧ i < i1 + (min (i1 + iTile) I - i1) then
          (List.range K).foldl (fun acc k => add acc (mul (A [i, k]) (B [k, j]))) a else a)
        else a)]
    · rw [blockStarts_foldl_select _ j J jTile hJ, if_pos hj]
    · intro C j1
      rw [foldl_read [i, j] _
        (fun a k1 => if i1 ≤ i ∧ i < i1 + (min (i1 + iTile) I - i1) then
          (if j1 ≤ j ∧ j < j1 + (min (j1 + jTile) J - j1) then
            (tileRange k1 kTile K).foldl
              (fun acc k => add acc (mul (A [i, k]) (B [k, j]))) a
           else a) else a)]
      · by_cases h1 : i1 ≤ i ∧ i < i1 + (min (i1 + iTile) I - i1)
        · by_cases h2 : j1 ≤ j ∧ j < j1 + (min (j1 + jTile) J - j1)
          · simp only [h1, h2, and_self, if_true]
            exact blockStarts_foldl_tiles _ K kTile hK _
          · simp only [h1, h2, and_self, if_true, if_false]
            exact foldl_keep _ _
        · simp only [h1, if_false]
          rw [foldl_keep]
          simp
      · intro C k1
        exact krnlMatmul_read add mul A B I J K iTile jTile kTile i1 j1 k1 C i j

theorem regTiles_toNat_pos (dI dJ dK : Dim) :
    (0 < (regTiles (DimIndexExpr dI) (DimIndexExpr dJ) (DimIndexExpr dK)).iRegTile.toNat ∨
        dI.size = 0) ∧
      (0 < (regTiles (DimIndexExpr dI) (DimIndexExpr dJ) (DimIndexExpr dK)).jRegTile.toNat ∨
        dJ.size = 0) ∧
      (0 < (regTiles (DimIndexExpr dI) (DimIndexExpr dJ) (DimIndexExpr dK)).kRegTile.toNat ∨
        dK.size = 0) := by
  rw [regTiles_iRegTile, regTiles_jRegTile, regTiles_kRegTile]
  obtain ⟨nI, sI⟩ := dI
  obtain ⟨nJ, sJ⟩ := dJ
  obtain ⟨nK, sK⟩ := dK
  refine ⟨?_, ?_, ?_⟩
  · cases sI
    · left; simp [DimIndexExpr]
    · simp only [DimIndexExpr, if_true]
      by_cases h : (nI : Int) < 4
      · rw [if_pos h]; simp; omega
      · rw [if_neg h]; left; decide
  · cases sJ
    · left; simp [DimIndexExpr]
    · simp only [DimIndexExpr, if_true]
      left
      split <;> decide
  · cases sK
    · left; simp [DimIndexExpr]
    · simp only [DimIndexExpr, if_true]
      by_cases h : (nK : Int) < 8
      · rw [if_pos h]; simp; omega
      · rw [if_neg h]; left; decide

/-- The dense path leaves at every element `(i, j)` of the output the sum
accumulated from `zeroVal` over `k = 0, ..., K - 1` in ascending order. -/
theorem replace2x2Matmul2d_read {α : Type} (add mul : α → α → α) (zeroVal : α)
    (A B : Tensor α) (dI dJ dK : Dim) (alloc : Tensor α) (i j : Nat)
    (hi : i < dI.size) (hj : j < dJ.size) :
    replace2x2Matmul2d add mul zeroVal A B dI dJ dK alloc [i, j] =
      (List.range dK.size).foldl (fun acc k => add acc (mul (A [i, k]) (B [k, j]))) zeroVal := by
  obtain ⟨hI, hJ, hK⟩ := regTiles_toNat_pos dI dJ dK
  unfold replace2x2Matmul2d
  exact blockedNest_read add mul A B dI.size dJ.size dK.size _ _ _ hI hJ hK
    (krnlMemset alloc zeroVal) i j hi hj

theorem foldlM_some {α β : Type} (f : α → β → Option α) (g : α → β → α)
    (L : List β) (h : ∀ a, ∀ x ∈ L, f a x = some (g a x)) (a : α) :
    L.foldlM f a = some (L.foldl g a) := by
  induction L generalizing a with
  | nil => rfl
  | cons x L ih =>
    have hx := h a x (List.mem_cons_self x L)
    have hL : ∀ a, ∀ y ∈ L, f a y = some (g a y) :=
      fun a y hy => h a y (List.mem_cons_of_mem x hy)
    simp [List.foldlM, hx, ih hL]

theorem foldl_pair_flatTrace {ι σ τ : Type} (F : σ → ι → σ) (G : ι → List τ) (L : List ι)
    (C : σ) (T : List τ) :
    L.foldl (fun state o => (F state.1 o, state.2 ++ G o)) (C, T) =
      (L.foldl F C, T ++ L.flatMap G) := by
  induction L generalizing C T with
  | nil => simp
  | cons o L ih => simp [ih]

/-- The reduction loop of one output index tuple, whenever its access functions
exist: the accumulated value and the loads, `k` ascending. -/
theorem reduction_eq {α : Type} (add mul : α → α → α) (fzero : α) (A B : Tensor α)
    (aRank outerLoopNum : Nat) (aPadDims bPadDims : List Bool) (K : Nat) (o : List Nat)
    (accessA accessB : Nat → List Nat)
    (hacc : ∀ k, k < K →
      accessFcts aRank outerLoopNum aPadDims bPadDims o k = some (accessA k, accessB k)) :
    reduction add mul fzero A B aRank outerLoopNum aPadDims bPadDims K o =
      some ((List.range K).foldl (fun acc k => add acc (mul (A (accessA k)) (B (accessB k))))
          fzero,
        (List.range K).flatMap
          (fun k => [MatMulAccess.loadA (accessA k), MatMulAccess.loadB (accessB k)])) := by
  unfold reduction
  rw [foldlM_some _ (fun state k => (add state.1 (mul (A (accessA k)) (B (accessB k))),
    state.2 ++ [MatMulAccess.loadA (accessA k), MatMulAccess.loadB (accessB k)]))]
  · rw [foldl_pair_flatTrace (fun acc k => add acc (mul (A (accessA k)) (B (accessB k))))
      (fun k => [MatMulAccess.loadA (accessA k), MatMulAccess.loadB (accessB k)])]
    simp
  · intro state k hk
    rw [hacc k (List.mem_range.1 hk)]
    rfl

/-- The generic loop nest, whenever the access functions exist for the
induction tuples: the buffer it leaves and the accesses it makes, one block of
loads followed by one store per output index tuple. -/
theorem replaceGenericMatmulRun_eq {α : Type} (add mul : α → α → α) (fzero : α)
    (A B : Tensor α) (dimsForOutput aLead : List Nat) (K : Nat) (aPadDims bPadDims : List Bool)
    (alloc : Tensor α) (accessA accessB : List Nat → Nat → List Nat)
    (hacc : ∀ o ∈ iterSpace dimsForOutput, ∀ k, k < K →
      accessFcts (aLead.length + 1) dimsForOutput.length aPadDims bPadDims o k =
        some (accessA o k, accessB o k)) :
    replaceGenericMatmulRun add mul fzero A B dimsForOutput (aLead ++ [K]) aPadDims bPadDims
        alloc =
      some ((iterSpace dimsForOutput).foldl (fun C o => Function.update C o
          ((List.range K).foldl
            (fun acc k => add acc (mul (A (accessA o k)) (B (accessB o k)))) fzero)) alloc,
        (iterSpace dimsForOutput).flatMap (fun o =>
          (List.range K).flatMap
            (fun k => [MatMulAccess.loadA (accessA o k), MatMulAccess.loadB (accessB o k)]) ++
          [MatMulAccess.storeAlloc o ((List.range K).foldl
            (fun acc k => add acc (mul (A (accessA o k)) (B (accessB o k)))) fzero)])) := by
  unfold replaceGenericMatmulRun
  have hlen : (aLead ++ [K]).length = aLead.length + 1 := by simp
  have hne : ¬ (aLead.length + 1 = 0) := by omega
  have hlast : (aLead ++ [K])[aLead.length + 1 - 1]? = some K := by simp
  simp only [hlen, hne, if_false, hlast]
  rw [foldlM_some _ (fun state o => (Function.update state.1 o
      ((List.range K).foldl
        (fun acc k => add acc (mul (A (accessA o k)) (B (accessB o k)))) fzero),
    state.2 ++ ((List.range K).flatMap
        (fun k => [MatMulAccess.loadA (accessA o k), MatMulAccess.loadB (accessB o k)]) ++
      [MatMulAccess.storeAlloc o ((List.range K).foldl
        (fun acc k => add acc (mul (A (accessA o k)) (B (accessB o k)))) fzero)])))]
  · rw [foldl_pair_flatTrace (fun C o => Function.update C o
        ((List.range K).foldl
          (fun acc k => add acc (mul (A (accessA o k)) (B (accessB o k)))) fzero))
      (fun o => (List.range K).flatMap
          (fun k => [MatMulAccess.loadA (accessA o k), MatMulAccess.loadB (accessB o k)]) ++
        [MatMulAccess.storeAlloc o ((List.range K).foldl
          (fun acc k => add acc (mul (A (accessA o k)) (B (accessB o k)))) fzero)])]
    simp
  · intro state o ho
    show (reduction add mul fzero A B (aLead.length + 1) dimsForOutput.length aPadDims bPadDims
      K o).bind _ = _
    rw [reduction_eq add mul fzero A B _ _ aPadDims bPadDims K o (accessA o) (accessB o)
      (hacc o ho)]
    rfl

theorem replaceGenericMatmul_eq_foldl {α : Type} (add mul : α → α → α) (fzero : α)
    (A B : Tensor α) (dimsForOutput aLead : List Nat) (K : Nat) (aPadDims bPadDims : List Bool)
    (alloc : Tensor α) (accessA accessB : List Nat → Nat → List Nat)
    (hacc : ∀ o ∈ iterSpace dimsForOutput, ∀ k, k < K →
      accessFcts (aLead.length + 1) dimsForOutput.length aPadDims bPadDims o k =
        some (accessA o k, accessB o k)) :
    replaceGenericMatmul add mul fzero A B dimsForOutput (aLead ++ [K]) aPadDims bPadDims
        alloc =
      some ((iterSpace dimsForOutput).foldl (fun C o => Function.update C o
          ((List.range K).foldl
            (fun acc k => add acc (mul (A (accessA o k)) (B (accessB o k)))) fzero)) alloc) := by
  unfold replaceGenericMatmul
  rw [replaceGenericMatmulRun_eq add mul fzero A B dimsForOutput aLead K aPadDims bPadDims alloc
    accessA accessB hacc]
  rfl

theorem foldl_update_read {α : Type} (val : List Nat → α) (L : List (List Nat))
    (C : Tensor α) (p : List Nat) (hp : p ∈ L) :
    (L.foldl (fun C o => Function.update C o (val o)) C) p = val p := by
  induction L using List.reverseRecOn with
  | nil => simp at hp
  | append_singleton L o ih =>
    rw [List.foldl_append]
    simp only [List.foldl_cons, List.foldl_nil]
    by_cases hpo : p = o
    · subst hpo; simp
    · rw [Function.update_noteq hpo]
      apply ih
      simpa [hpo] using hp

theorem mem_iterSpace_pair (I J i j : Nat) (hi : i < I) (hj : j < J) :
    [i, j] ∈ iterSpace [I, J] := by
  simp only [iterSpace, List.mem_flatMap, List.mem_map, List.mem_range]
  exact ⟨i, hi, [j], ⟨j, hj, by simp⟩, rfl⟩

/-- For two unpadded rank-2 operands the access functions are `A[i, k]` and
`B[k, j]`. -/
theorem accessFcts_rank2 (i j k : Nat) :
    accessFcts 2 2 [false, false] [false, false] [i, j] k = some ([i, k], [k, j]) := by
  rfl

/-- On two rank-2 operands the generic path stores at every output element
`(i, j)` the sum accumulated from `fzero` over `k = 0, ..., K - 1`. -/
theorem replaceGenericMatmul_rank2 {α : Type} (add mul : α → α → α) (fzero : α)
    (A B : Tensor α) (I J K : Nat) (alloc : Tensor α) (i j : Nat) (hi : i < I) (hj : j < J) :
    ∃ C, replaceGenericMatmul add mul fzero A B [I, J] [I, K] [false, false] [false, false]
        alloc = some C ∧
      C [i, j] =
        (List.range K).foldl (fun acc k => add acc (mul (A [i, k]) (B [k, j]))) fzero := by
  have hacc : ∀ o ∈ iterSpace [I, J], ∀ k, k < K →
      accessFcts (([I] : List Nat).length + 1) ([I, J] : List Nat).length [false, false]
          [false, false] o k =
        some ([o.getD 0 0, k], [k, o.getD 1 0]) := by
    intro o ho k _
    simp only [iterSpace, List.mem_flatMap, List.mem_map, List.mem_range] at ho
    obtain ⟨a, _, t, ⟨b, _, hb⟩, rfl⟩ := ho
    simp only [List.map_cons, List.map_nil, List.mem_singleton] at hb
    obtain ⟨u, hu, rfl⟩ := hb
    subst hu
    exact accessFcts_rank2 _ _ _
  have hrun : replaceGenericMatmul add mul fzero A B [I, J] [I, K] [false, false]
      [false, false] alloc =
        some ((iterSpace [I, J]).foldl (fun C o => Function.update C o
          ((List.range K).foldl
            (fun acc k => add acc (mul (A [o.getD 0 0, k]) (B [k, o.getD 1 0]))) fzero))
          alloc) :=
    replaceGenericMatmul_eq_foldl add mul fzero A B [I, J] [I] K [false, false] [false, false]
      alloc (fun o k => [o.getD 0 0, k]) (fun o k => [k, o.getD 1 0]) hacc
  refine ⟨_, hrun, ?_⟩
  rw [foldl_update_read (fun o => (List.range K).foldl
    (fun acc k => add acc (mul (A [o.getD 0 0, k]) (B [k, o.getD 1 0]))) fzero)
    _ _ _ (mem_iterSpace_pair I J i j hi hj)]
  rfl

/-- C10: for 2-D operands A of shape (I, K) and B of shape (K, J), every
element `(i, j)` of the output of the specialized dense path (output set to
zero, I/J/K blocked by the chosen tile sizes, multiply-accumulate per block)
equals the element the generic path produces for the same operands, whichever
of the dimensions are literal and whichever are known only at run time, and for
any element arithmetic: both are the products `A[i, k] * B[k, j]` accumulated
from zero for `k` ascending. -/
theorem replace2x2Matmul2d_eq_generic {α : Type} (add mul : α → α → α) (zero : α)
    (A B : Tensor α) (dI dJ dK : Dim) (allocDense allocGeneric : Tensor α) (i j : Nat)
    (hi : i < dI.size) (hj : j < dJ.size) :
    ∃ C, replaceGenericMatmul add mul zero A B [dI.size, dJ.size] [dI.size, dK.size]
        [false, false] [false, false] allocGeneric = some C ∧
      replace2x2Matmul2d add mul zero A B dI dJ dK allocDense [i, j] = C [i, j] ∧
      C [i, j] =
        (List.range dK.size).foldl (fun acc k => add acc (mul (A [i, k]) (B [k, j]))) zero := by
  obtain ⟨C, hC, hval⟩ :=
    replaceGenericMatmul_rank2 add mul zero A B dI.size dJ.size dK.size allocGeneric i j hi hj
  refine ⟨C, hC, ?_, hval⟩
  rw [hval]
  exact replace2x2Matmul2d_read add mul zero A B dI dJ dK allocDense i j hi hj

/-- Witness of C10: A of shape (4, 3) with `A[i, k] = 3 i + k + 1`, B of shape
(3, 5) with `B[k, j] = 5 k + j + 2`, integer arithmetic, I and J literal and K
known only at run time, at the element (3, 4). -/
theorem replace2x2Matmul2d_eq_generic_witness :
    ∃ C, replaceGenericMatmul (fun a b : Int => a + b) (fun a b => a * b) 0
        (fun idx => 3 * idx.getD 0 0 + idx.getD 1 0 + 1)
        (fun idx => 5 * idx.getD 0 0 + idx.getD 1 0 + 2)
        [4, 5] [4, 3] [false, false] [false, false] (fun _ => 7) = some C ∧
      replace2x2Matmul2d (fun a b : Int => a + b) (fun a b => a * b) 0
        (fun idx => 3 * idx.getD 0 0 + idx.getD 1 0 + 1)
        (fun idx => 5 * idx.getD 0 0 + idx.getD 1 0 + 2)
        ⟨4, true⟩ ⟨5, true⟩ ⟨3, false⟩ (fun _ => 9) [3, 4] = C [3, 4] ∧
      C [3, 4] = 373 := by
  obtain ⟨C, hC, hD, hval⟩ := replace2x2Matmul2d_eq_generic
    (fun a b : Int => a + b) (fun a b => a * b) 0
    (fun idx => 3 * idx.getD 0 0 + idx.getD 1 0 + 1)
    (fun idx => 5 * idx.getD 0 0 + idx.getD 1 0 + 2)
    ⟨4, true⟩ ⟨5, true⟩ ⟨3, false⟩ (fun _ => 9) (fun _ => 7) 3 4 (by decide) (by decide)
  exact ⟨C, hC, hD, hval.trans (by decide)⟩

/-! ## MatMul.cpp: the generic loop nest -/

theorem mem_iterSpace (ubs o : List Nat) :
    o ∈ iterSpace ubs ↔ List.Forall₂ (fun i ub => i < ub) o ubs := by
  induction ubs generalizing o with
  | nil =>
    simp only [iterSpace, List.mem_singleton]
    constructor
    · rintro rfl; exact List.Forall₂.nil
    · intro h; cases h; rfl
  | cons ub ubs ih =>
    simp only [iterSpace, List.mem_flatMap, List.mem_map, List.mem_range]
    constructor
    · rintro ⟨i, hi, t, ht, rfl⟩
      exact List.Forall₂.cons hi ((ih t).1 ht)
    · intro h
      cases h with
      | cons hi ht => exact ⟨_, hi, _, (ih _).2 ht, rfl⟩

theorem iterSpace_nodup (ubs : List Nat) : (iterSpace ubs).Nodup := by
  induction ubs with
  | nil => simp [iterSpace]
  | cons ub ubs ih =>
    simp only [iterSpace]
    rw [List.nodup_flatMap]
    refine ⟨fun i _ => ?_, ?_⟩
    · exact ih.map (fun a b h => by simpa using h)
    · refine (List.nodup_range ub).pairwise_of_forall_ne ?_
      intro a _ b _ hab
      intro x hxa hxb
      simp only [List.mem_map] at hxa hxb
      obtain ⟨t, _, rfl⟩ := hxa
      obtain ⟨u, _, hu⟩ := hxb
      simp only [List.cons.injEq] at hu
      exact hab hu.1.symm

theorem foldl_update_at {ι α : Type} [DecidableEq ι] (val : ι → α) (L : List ι)
    (C : ι → α) (p : ι) :
    (p ∈ L → (L.foldl (fun C o => Function.update C o (val o)) C) p = val p) ∧
      (p ∉ L → (L.foldl (fun C o => Function.update C o (val o)) C) p = C p) := by
  induction L using List.reverseRecOn with
  | nil => simp
  | append_singleton L o ih =>
    rw [List.foldl_append]
    simp only [List.foldl_cons, List.foldl_nil]
    by_cases hpo : p = o
    · subst hpo; simp
    · rw [Function.update_noteq hpo]
      constructor
      · intro hp
        exact ih.1 (by simpa [hpo] using hp)
      · intro hp
        exact ih.2 (fun h => hp (by simp [h]))

theorem foldl_add_eq_sum {α : Type} [Semiring α] (f : Nat → α) (n : Nat) :
    (List.range n).foldl (fun acc k => acc + f k) 0 = ∑ k in Finset.range n, f k := by
  induction n with
  | zero => simp
  | succ n ih => rw [List.range_succ, List.foldl_append, ih, Finset.sum_range_succ]; rfl

/-- The generic path, whenever the access functions exist for the induction
tuples of the loop nest: it returns, every output element within the bounds
holds its reduction, and every other element of the buffer is untouched. -/
theorem replaceGenericMatmul_spec {α : Type} (add mul : α → α → α) (fzero : α)
    (A B : Tensor α) (dimsForOutput aLead : List Nat) (K : Nat) (aPadDims bPadDims : List Bool)
    (alloc : Tensor α) (accessA accessB : List Nat → Nat → List Nat)
    (hacc : ∀ o ∈ iterSpace dimsForOutput, ∀ k, k < K →
      accessFcts (aLead.length + 1) dimsForOutput.length aPadDims bPadDims o k =
        some (accessA o k, accessB o k)) :
    ∃ C, replaceGenericMatmul add mul fzero A B dimsForOutput (aLead ++ [K]) aPadDims bPadDims
        alloc = some C ∧
      (∀ o ∈ iterSpace dimsForOutput, C o = (List.range K).foldl
          (fun acc k => add acc (mul (A (accessA o k)) (B (accessB o k)))) fzero) ∧
      (∀ o, o ∉ iterSpace dimsForOutput → C o = alloc o) := by
  have hrun := replaceGenericMatmul_eq_foldl add mul fzero A B dimsForOutput aLead K aPadDims
    bPadDims alloc accessA accessB hacc
  refine ⟨_, hrun, fun o ho => ?_, fun o ho => ?_⟩
  · exact (foldl_update_at (fun o => (List.range K).foldl
      (fun acc k => add acc (mul (A (accessA o k)) (B (accessB o k)))) fzero) _ _ o).1 ho
  · exact (foldl_update_at (fun o => (List.range K).foldl
      (fun acc k => add acc (mul (A (accessA o k)) (B (accessB o k)))) fzero) _ _ o).2 ho

theorem storeAlloc_not_mem_flatMap {α : Type} (L : List (List Nat)) (o : List Nat)
    (loads : List Nat → List (MatMulAccess α)) (val : List Nat → α)
    (hloads : ∀ p v, MatMulAccess.storeAlloc o v ∉ loads p) (ho : o ∉ L) (v : α) :
    MatMulAccess.storeAlloc o v ∉
      L.flatMap (fun p => loads p ++ [MatMulAccess.storeAlloc p (val p)]) := by
  intro hmem
  simp only [List.mem_flatMap, List.mem_append, List.mem_singleton] at hmem
  obtain ⟨p, hp, hin | heq⟩ := hmem
  · exact hloads p v hin
  · simp only [MatMulAccess.storeAlloc.injEq] at heq
    exact ho (heq.1 ▸ hp)

theorem storeAlloc_not_mem_loads {α : Type} (K : Nat) (accessA accessB : Nat → List Nat)
    (o : List Nat) (v : α) :
    MatMulAccess.storeAlloc o v ∉ (List.range K).flatMap
      (fun k => [MatMulAccess.loadA (accessA k), MatMulAccess.loadB (accessB k)]) := by
  simp

/-- C11: in the generic path, for every output index tuple `o` within the output
bounds, the value stored at `output[o]` is the accumulator started at zero and
updated once per `k` in ascending order over `[0, K)`, which in exact arithmetic
is the sum over `k < K` of `A[accessA(o, k)] * B[accessB(o, k)]`.  The accesses
of the run are, for each output index tuple in loop order, the loads of its
reduction loop followed by one store to `alloc`; so the store to `alloc[o]`
comes right after the `K` steps of the reduction loop of `o`, and no other
access of the run, earlier or later, stores to `alloc[o]`. -/
theorem replaceGenericMatmul_accumulates {α : Type} [Semiring α] (A B : Tensor α)
    (dimsForOutput aLead : List Nat) (K : Nat) (aPadDims bPadDims : List Bool)
    (alloc : Tensor α) (accessA accessB : List Nat → Nat → List Nat)
    (hacc : ∀ o, List.Forall₂ (fun i ub => i < ub) o dimsForOutput → ∀ k, k < K →
      accessFcts (aLead.length + 1) dimsForOutput.length aPadDims bPadDims o k =
        some (accessA o k, accessB o k))
    (o : List Nat) (ho : List.Forall₂ (fun i ub => i < ub) o dimsForOutput) :
    ∃ C accesses,
      replaceGenericMatmulRun (fun a b => a + b) (fun a b => a * b) 0 A B dimsForOutput
        (aLead ++ [K]) aPadDims bPadDims alloc = some (C, accesses) ∧
      replaceGenericMatmul (fun a b => a + b) (fun a b => a * b) 0 A B dimsForOutput
        (aLead ++ [K]) aPadDims bPadDims alloc = some C ∧
      C o = (List.range K).foldl
        (fun acc k => acc + A (accessA o k) * B (accessB o k)) 0 ∧
      C o = ∑ k in Finset.range K, A (accessA o k) * B (accessB o k) ∧
      accesses = (iterSpace dimsForOutput).flatMap (fun p =>
        (List.range K).flatMap
          (fun k => [MatMulAccess.loadA (accessA p k), MatMulAccess.loadB (accessB p k)]) ++
        [MatMulAccess.storeAlloc p (∑ k in Finset.range K,
          A (accessA p k) * B (accessB p k))]) ∧
      (∃ before after, iterSpace dimsForOutput = before ++ o :: after ∧
        o ∉ before ∧ o ∉ after) ∧
      ∃ earlier later,
        accesses = earlier ++
          ((List.range K).flatMap
            (fun k => [MatMulAccess.loadA (accessA o k), MatMulAccess.loadB (accessB o k)]) ++
          [MatMulAccess.storeAlloc o (∑ k in Finset.range K,
            A (accessA o k) * B (accessB o k))]) ++ later ∧
        (∀ v, MatMulAccess.storeAlloc o v ∉ earlier) ∧
        (∀ v, MatMulAccess.storeAlloc o v ∉ later) := by
  have hacc2 : ∀ o ∈ iterSpace dimsForOutput, ∀ k, k < K →
      accessFcts (aLead.length + 1) dimsForOutput.length aPadDims bPadDims o k =
        some (accessA o k, accessB o k) := fun o ho => hacc o ((mem_iterSpace _ _).1 ho)
  have hrun := replaceGenericMatmulRun_eq (fun a b : α => a + b) (fun a b => a * b) 0 A B
    dimsForOutput aLead K aPadDims bPadDims alloc accessA accessB hacc2
  have hsum : ∀ p : List Nat, (List.range K).foldl
      (fun acc k => acc + A (accessA p k) * B (accessB p k)) 0 =
        ∑ k in Finset.range K, A (accessA p k) * B (accessB p k) :=
    fun p => foldl_add_eq_sum (fun k => A (accessA p k) * B (accessB p k)) K
  simp only [hsum] at hrun
  have hmem : o ∈ iterSpace dimsForOutput := (mem_iterSpace _ _).2 ho
  have hval := (foldl_update_at (fun p => ∑ k in Finset.range K,
    A (accessA p k) * B (accessB p k)) (iterSpace dimsForOutput) alloc o).1 hmem
  obtain ⟨before, after, hsplit⟩ := List.append_of_mem hmem
  have hnd := iterSpace_nodup dimsForOutput
  rw [hsplit, List.nodup_append] at hnd
  have hb : o ∉ before := fun hb => hnd.2.2 hb (List.mem_cons_self o after)
  have ha : o ∉ after := (List.nodup_cons.1 hnd.2.1).1
  refine ⟨_, _, hrun, ?_, ?_, hval, rfl, ⟨before, after, hsplit, hb, ha⟩, ?_⟩
  · unfold replaceGenericMatmul
    rw [hrun]
    rfl
  · rw [hval, hsum]
  · refine ⟨before.flatMap (fun p =>
        (List.range K).flatMap
          (fun k => [MatMulAccess.loadA (accessA p k), MatMulAccess.loadB (accessB p k)]) ++
        [MatMulAccess.storeAlloc p (∑ k in Finset.range K,
          A (accessA p k) * B (accessB p k))]),
      after.flatMap (fun p =>
        (List.range K).flatMap
          (fun k => [MatMulAccess.loadA (accessA p k), MatMulAccess.loadB (accessB p k)]) ++
        [MatMulAccess.storeAlloc p (∑ k in Finset.range K,
          A (accessA p k) * B (accessB p k))]), ?_, ?_, ?_⟩
    · rw [hsplit, List.flatMap_append, List.flatMap_cons]
      simp only [List.append_assoc]
    · intro v
      exact storeAlloc_not_mem_flatMap before o _ _
        (fun p w => storeAlloc_not_mem_loads K (accessA p) (accessB p) o w) hb v
    · intro v
      exact storeAlloc_not_mem_flatMap after o _ _
        (fun p w => storeAlloc_not_mem_loads K (accessA p) (accessB p) o w) ha v

/-- Witness of C11: A of shape (2, 3) with `A[i, k] = 3 i + k + 1`, B of shape
(3, 2) with `B[k, j] = 2 k + j + 1`, integer arithmetic, at the output element
(1, 0): `4 * 1 + 5 * 3 + 6 * 5 = 49`, stored once after the three steps of its
reduction loop. -/
theorem replaceGenericMatmul_accumulates_witness :
    ∃ C accesses, replaceGenericMatmulRun (fun a b : Int => a + b) (fun a b => a * b) 0
        (fun idx => 3 * idx.getD 0 0 + idx.getD 1 0 + 1)
        (fun idx => 2 * idx.getD 0 0 + idx.getD 1 0 + 1)
        [2, 2] ([2] ++ [3]) [false, false] [false, false] (fun _ => 7) = some (C, accesses) ∧
      C [1, 0] = 49 ∧
      ∃ earlier later,
        accesses = earlier ++
          [MatMulAccess.loadA [1, 0], MatMulAccess.loadB [0, 0],
            MatMulAccess.loadA [1, 1], MatMulAccess.loadB [1, 0],
            MatMulAccess.loadA [1, 2], MatMulAccess.loadB [2, 0],
            MatMulAccess.storeAlloc [1, 0] 49] ++ later ∧
        (∀ v, MatMulAccess.storeAlloc [1, 0] v ∉ earlier) ∧
        (∀ v, MatMulAccess.storeAlloc [1, 0] v ∉ later) := by
  obtain ⟨C, accesses, hrun, _, _, hsum, _, _, earlier, later, htrace, hearlier, hlater⟩ :=
    replaceGenericMatmul_accumulates
      (fun idx : List Nat => ((3 * idx.getD 0 0 + idx.getD 1 0 + 1 : Nat) : Int))
      (fun idx : List Nat => ((2 * idx.getD 0 0 + idx.getD 1 0 + 1 : Nat) : Int))
      [2, 2] [2] 3 [false, false] [false, false] (fun _ => 7)
      (fun o k => [o.getD 0 0, k]) (fun o k => [k, o.getD 1 0])
      (fun o ho k _ => by
        cases ho with
        | cons h1 t1 =>
          cases t1 with
          | cons h2 t2 =>
            cases t2
            exact accessFcts_rank2 _ _ _)
      [1, 0] (List.Forall₂.cons (by decide) (List.Forall₂.cons (by decide) List.Forall₂.nil))
  refine ⟨C, accesses, hrun, hsum.trans (by decide), earlier, later, ?_, hearlier, hlater⟩
  rw [htrace]
  rfl

/-! ## MatMul.cpp: access functions for a 1-D operand A -/

theorem accessStep_lead (pre : List Nat) (last k : Nat) (acc : List Nat × List Nat) (i : Nat)
    (hi : i < pre.length) :
    accessStep (pre.length + 2) (pre.length + 1)
        (List.replicate (pre.length + 1) true ++ [false])
        (List.replicate (pre.length + 2) false) (pre ++ [last]) k acc i =
      some (acc.1, acc.2 ++ [pre.getD i 0]) := by
  have ha : (List.replicate (pre.length + 1) true ++ [false])[i]? = some true := by
    rw [List.getElem?_append_left (by simp; omega)]
    simp [List.getElem?_replicate]; omega
  have hb : (List.replicate (pre.length + 2) false)[i]? = some false := by
    simp [List.getElem?_replicate]; omega
  have ho : (pre ++ [last])[i]? = some (pre.getD i 0) := by
    rw [List.getElem?_append_left hi]
    simp [List.getD_eq_getElem?_getD, List.getElem?_eq_getElem hi]
  have h1 : ¬ ((i : Int) = ((pre.length + 2 : Nat) : Int) - 2) := by push_cast; omega
  have h2 : ¬ (i = pre.length + 1) := by omega
  have h3 : pre.length + 1 - 1 = pre.length := by omega
  simp only [accessStep, ha, hb, ho, h1, h2, Option.bind_eq_bind, Option.some_bind, Bool.not_true, Bool.not_false,
    Bool.false_eq_true, if_true, if_false, Option.map_some', Option.pure_def]

theorem accessStep_reduction (pre : List Nat) (last k : Nat) (acc : List Nat × List Nat) :
    accessStep (pre.length + 2) (pre.length + 1)
        (List.replicate (pre.length + 1) true ++ [false])
        (List.replicate (pre.length + 2) false) (pre ++ [last]) k acc pre.length =
      some (acc.1, acc.2 ++ [k]) := by
  have ha : (List.replicate (pre.length + 1) true ++ [false])[pre.length]? = some true := by
    rw [List.getElem?_append_left (by simp)]
    simp [List.getElem?_replicate]
  have hb : (List.replicate (pre.length + 2) false)[pre.length]? = some false := by
    simp [List.getElem?_replicate]
  have h1 : ((pre.length : Nat) : Int) = ((pre.length + 2 : Nat) : Int) - 2 := by
    push_cast; omega
  simp only [accessStep, ha, hb, h1, Option.bind_eq_bind, Option.some_bind, Bool.not_true, Bool.not_false,
    Bool.false_eq_true, if_true, if_false, Option.map_some', Option.pure_def]

theorem accessStep_last (pre : List Nat) (last k : Nat) (acc : List Nat × List Nat) :
    accessStep (pre.length + 2) (pre.length + 1)
        (List.replicate (pre.length + 1) true ++ [false])
        (List.replicate (pre.length + 2) false) (pre ++ [last]) k acc (pre.length + 1) =
      some (acc.1 ++ [k], acc.2 ++ [last]) := by
  have ha : (List.replicate (pre.length + 1) true ++ [false])[pre.length + 1]? = some false := by
    rw [List.getElem?_append_right (by simp)]
    simp
  have hb : (List.replicate (pre.length + 2) false)[pre.length + 1]? = some false := by
    simp [List.getElem?_replicate]
  have h1 : ((pre.length + 1 : Nat) : Int) = ((pre.length + 2 : Nat) : Int) - 1 := by
    push_cast; omega
  have h2 : ¬ (((pre.length + 1 : Nat) : Int) = ((pre.length + 2 : Nat) : Int) - 2) := by
    push_cast; omega
  have ho : (pre ++ [last])[pre.length]? = some last := by simp
  have h3 : pre.length + 1 - 1 = pre.length := by omega
  simp only [accessStep, ha, hb, h1, h2, h3, ho, Option.bind_eq_bind, Option.some_bind, Bool.not_true, Bool.not_false,
    Bool.false_eq_true, if_true, if_false, Option.map_some', Option.pure_def]
  rw [if_neg]
  intro h
  omega

theorem accessFcts_lead (pre : List Nat) (last k : Nat) (m : Nat) (hm : m ≤ pre.length) :
    (List.range m).foldlM
        (accessStep (pre.length + 2) (pre.length + 1)
          (List.replicate (pre.length + 1) true ++ [false])
          (List.replicate (pre.length + 2) false) (pre ++ [last]) k) ([], []) =
      some ([], pre.take m) := by
  induction m with
  | zero => rfl
  | succ m ih =>
    have hlt : m < pre.length := by omega
    rw [List.range_succ, List.foldlM_append, ih (by omega)]
    simp only [Option.bind_eq_bind, Option.some_bind, List.foldlM_cons, List.foldlM_nil]
    rw [accessStep_lead pre last k _ m hlt]
    simp only [Option.bind_eq_bind, Option.some_bind, Option.pure_def, List.nil_append]
    congr 2
    rw [List.take_succ, List.getD_eq_getElem?_getD, List.getElem?_eq_getElem hlt]
    rfl

/-- For a 1-D operand A (padded on the left to the rank of B, every padded
position flagged) and an unpadded B, the access functions are `A[k]` and
`B[o_0, ..., o_(r-3), k, o_(r-2)]`. -/
theorem accessFcts_A1d (pre : List Nat) (last k : Nat) :
    accessFcts (pre.length + 2) (pre.length + 1)
        (List.replicate (pre.length + 1) true ++ [false])
        (List.replicate (pre.length + 2) false) (pre ++ [last]) k =
      some ([k], pre ++ [k, last]) := by
  unfold accessFcts
  have hr : List.range (pre.length + 2) = List.range pre.length ++ [pre.length, pre.length + 1] := by
    rw [List.range_succ, List.range_succ]; simp
  rw [hr, List.foldlM_append, accessFcts_lead pre last k pre.length (le_refl _)]
  simp only [Option.bind_eq_bind, Option.some_bind, List.foldlM_cons, List.foldlM_nil]
  rw [accessStep_reduction]
  simp only [Option.bind_eq_bind, Option.some_bind]
  rw [accessStep_last]
  simp

/-- C12: in the generic path, when A is 1-D and B has rank `r ≥ 2` (A padded on
the left to rank `r` with every padded position flagged, B unpadded, `r - 1`
outer loops), the access indices generated for A are exactly `[k]` and those
generated for B are exactly `[o_0, ..., o_(r-3), k, o_(r-2)]`: the padded
positions are skipped and the last dimension of B takes the last output
index. -/
theorem accessFcts_oneDimA (r : Nat) (hr : 2 ≤ r) (o : List Nat) (ho : o.length = r - 1)
    (k : Nat) :
    accessFcts r (r - 1) (List.replicate (r - 1) true ++ [false]) (List.replicate r false) o k =
        some ([k], o.take (r - 2) ++ [k] ++ o.drop (r - 2)) ∧
      (o.take (r - 2)).length = r - 2 ∧ (o.drop (r - 2)).length = 1 := by
  rcases List.eq_nil_or_concat o with rfl | ⟨pre, last, rfl⟩
  · simp at ho; omega
  · have hrp : r = pre.length + 2 := by simp at ho; omega
    subst hrp
    have h1 : pre.length + 2 - 1 = pre.length + 1 := by omega
    have h2 : pre.length + 2 - 2 = pre.length := by omega
    rw [h1, h2, List.concat_eq_append, accessFcts_A1d]
    simp

/-- Witness of C12: A of shape (5), B of shape (10, 5, 4), output (10, 4): at the
output index (7, 2) and `k = 3`, A is read at `[3]` and B at `[7, 3, 2]`. -/
theorem accessFcts_oneDimA_witness :
    accessFcts 3 2 [true, true, false] [false, false, false] [7, 2] 3 =
      some ([3], [7, 3, 2]) :=
  (accessFcts_oneDimA 3 (by decide) [7, 2] (by decide) 3).1

/-! ## TopK.cpp: shape resolution -/

theorem topKOutputDims_eq_set (X : DimsExpr) (axis : Int) (kIE : IndexExpr)
    (h0 : 0 ≤ axis) :
    topKOutputDims X axis kIE = X.set axis.toNat kIE := by
  apply List.ext_getElem?
  intro i
  unfold topKOutputDims
  by_cases hi : i < X.length
  · have hr : (List.range X.length)[i]? = some i := by
      rw [List.getElem?_eq_getElem (by simpa using hi)]; simp
    rw [List.getElem?_map, hr, List.getElem?_set]
    by_cases hia : (i : Int) = axis
    · have : axis.toNat = i := by omega
      simp [hia, this, hi]
    · have : ¬ (axis.toNat = i) := by omega
      simp [hia, this, List.getD_eq_getElem?_getD, List.getElem?_eq_getElem hi]
  · rw [List.getElem?_eq_none (by simpa using hi), List.getElem?_eq_none (by simpa using hi)]

/-- The test of TopK.cpp 47-48 holds exactly when `K` and the axis dimension are
both literal and `K` is not below the dimension. -/
theorem kOutOfBound_iff (X : DimsExpr) (n : Nat) (kIE : IndexExpr) (hn : n < X.length) :
    ((kIE.isLiteral && (X.getD n IndexExpr.undefined).isLiteral) &&
        decide (kIE.getLiteral ≥ (X.getD n IndexExpr.undefined).getLiteral)) = true ↔
      ∃ k d, kIE = .literal k ∧ X[n]? = some (.literal d) ∧ k ≥ d := by
  rw [List.getD_eq_getElem?_getD, List.getElem?_eq_getElem hn, Option.getD_some]
  cases kIE with
  | undefined => simp [IndexExpr.isLiteral]
  | dynamic => simp [IndexExpr.isLiteral]
  | literal k =>
    cases hd : X[n] with
    | undefined => simp [IndexExpr.isLiteral]
    | dynamic => simp [IndexExpr.isLiteral]
    | literal d => simp [IndexExpr.isLiteral, IndexExpr.getLiteral]

theorem computeShape_assert (X : DimsExpr) (axisAttr : Int) (kIE : IndexExpr)
    (outputsDims : Nat → DimsExpr)
    (ha : ¬ (normalizeAxis axisAttr X.length ≥ 0 ∧
      normalizeAxis axisAttr X.length < X.length)) :
    ONNXTopKOpShapeHelper.computeShape X axisAttr kIE outputsDims =
      (.assertFailed "axis is out of bound", outputsDims) := by
  unfold ONNXTopKOpShapeHelper.computeShape
  simp only []
  rw [if_pos ha]

theorem computeShape_undefined (X : DimsExpr) (axisAttr : Int)
    (outputsDims : Nat → DimsExpr)
    (ha : normalizeAxis axisAttr X.length ≥ 0 ∧ normalizeAxis axisAttr X.length < X.length) :
    ONNXTopKOpShapeHelper.computeShape X axisAttr .undefined outputsDims =
      (.failure "K input parameter could not be processed", outputsDims) := by
  unfold ONNXTopKOpShapeHelper.computeShape
  simp only []
  rw [if_neg (not_not.2 ha)]
  rfl

theorem computeShape_bound (X : DimsExpr) (axisAttr : Int) (kIE : IndexExpr)
    (outputsDims : Nat → DimsExpr)
    (ha : normalizeAxis axisAttr X.length ≥ 0 ∧ normalizeAxis axisAttr X.length < X.length)
    (hb : ∃ k d, kIE = .literal k ∧
      X[(normalizeAxis axisAttr X.length).toNat]? = some (.literal d) ∧ k ≥ d) :
    ONNXTopKOpShapeHelper.computeShape X axisAttr kIE outputsDims =
      (.failure "K value is out of bound", outputsDims) := by
  have hlt : (normalizeAxis axisAttr X.length).toNat < X.length := by omega
  have hu : kIE.isUndefined = false := by
    obtain ⟨k, d, rfl, _⟩ := hb; rfl
  unfold ONNXTopKOpShapeHelper.computeShape
  simp only []
  rw [if_neg (not_not.2 ha), hu, if_pos ((kOutOfBound_iff X _ kIE hlt).2 hb)]
  simp

theorem computeShape_ok (X : DimsExpr) (axisAttr : Int) (kIE : IndexExpr)
    (outputsDims : Nat → DimsExpr)
    (ha : normalizeAxis axisAttr X.length ≥ 0 ∧ normalizeAxis axisAttr X.length < X.length)
    (hk : kIE ≠ .undefined)
    (hb : ¬ ∃ k d, kIE = .literal k ∧
      X[(normalizeAxis axisAttr X.length).toNat]? = some (.literal d) ∧ k ≥ d) :
    ONNXTopKOpShapeHelper.computeShape X axisAttr kIE outputsDims =
      (.success, Function.update outputsDims 0
        (X.set (normalizeAxis axisAttr X.length).toNat kIE)) := by
  have hlt : (normalizeAxis axisAttr X.length).toNat < X.length := by omega
  have hu : kIE.isUndefined = false := by
    cases kIE with
    | undefined => exact absurd rfl hk
    | dynamic => rfl
    | literal k => rfl
  unfold ONNXTopKOpShapeHelper.computeShape
  simp only []
  rw [if_neg (not_not.2 ha), hu, if_neg (fun h => hb ((kOutOfBound_iff X _ kIE hlt).1 h)),
    topKOutputDims_eq_set X _ kIE ha.1]
  simp

/-- A successful call of `computeShape` had its axis in range, a defined `K`
below the bound check, and recorded the shape at output 0 only. -/
theorem computeShape_success_inv (X : DimsExpr) (axisAttr : Int) (kIE : IndexExpr)
    (outputsDims outputsDims' : Nat → DimsExpr)
    (h : ONNXTopKOpShapeHelper.computeShape X axisAttr kIE outputsDims =
      (.success, outputsDims')) :
    (normalizeAxis axisAttr X.length ≥ 0 ∧ normalizeAxis axisAttr X.length < X.length) ∧
      kIE ≠ .undefined ∧
      (¬ ∃ k d, kIE = .literal k ∧
        X[(normalizeAxis axisAttr X.length).toNat]? = some (.literal d) ∧ k ≥ d) ∧
      outputsDims' = Function.update outputsDims 0
        (X.set (normalizeAxis axisAttr X.length).toNat kIE) := by
  by_cases ha : normalizeAxis axisAttr X.length ≥ 0 ∧
      normalizeAxis axisAttr X.length < X.length
  · by_cases hk : kIE = .undefined
    · subst hk
      rw [computeShape_undefined X axisAttr outputsDims ha] at h
      simp at h
    · by_cases hb : ∃ k d, kIE = .literal k ∧
          X[(normalizeAxis axisAttr X.length).toNat]? = some (.literal d) ∧ k ≥ d
      · rw [computeShape_bound X axisAttr kIE outputsDims ha hb] at h
        simp at h
      · rw [computeShape_ok X axisAttr kIE outputsDims ha hk hb] at h
        exact ⟨ha, hk, hb, (Prod.mk.inj h).2.symm⟩
  · rw [computeShape_assert X axisAttr kIE outputsDims ha] at h
    simp at h

/-- C13: whenever TopK shape resolution succeeds on an input X of rank `r` with
normalized axis `a` and count expression `K`, the resolved output shape is X
with dimension `a` replaced by `K`: it has exactly `r` dimensions, its dimension
`a` is `K`, and every other dimension `i` is the dimension `i` of X. -/
theorem computeShape_success_shape (X : DimsExpr) (axisAttr : Int) (kIE : IndexExpr)
    (outputsDims outputsDims' : Nat → DimsExpr)
    (h : ONNXTopKOpShapeHelper.computeShape X axisAttr kIE outputsDims =
      (.success, outputsDims')) :
    outputsDims' 0 = X.set (normalizeAxis axisAttr X.length).toNat kIE ∧
      (outputsDims' 0).length = X.length ∧
      (outputsDims' 0)[(normalizeAxis axisAttr X.length).toNat]? = some kIE ∧
      ∀ i, i ≠ (normalizeAxis axisAttr X.length).toNat → (outputsDims' 0)[i]? = X[i]? := by
  obtain ⟨ha, _, _, hs⟩ := computeShape_success_inv X axisAttr kIE outputsDims outputsDims' h
  have hlt : (normalizeAxis axisAttr X.length).toNat < X.length := by omega
  have h0 : outputsDims' 0 = X.set (normalizeAxis axisAttr X.length).toNat kIE := by
    rw [hs]; simp
  refine ⟨h0, by rw [h0]; simp, by rw [h0]; simp [hlt], fun i hi => ?_⟩
  rw [h0, List.getElem?_set_ne (fun h => hi h.symm)]

/-- Witness of C13: X of shape (3, 6), axis 1, K = 2 resolves to (3, 2). -/
theorem computeShape_success_shape_witness :
    ∃ outputsDims', ONNXTopKOpShapeHelper.computeShape [.literal 3, .literal 6] 1 (.literal 2)
        (fun _ => []) = (.success, outputsDims') ∧
      outputsDims' 0 = [.literal 3, .literal 2] :=
  ⟨_, rfl, (computeShape_success_shape [.literal 3, .literal 6] 1 (.literal 2) (fun _ => []) _
    rfl).1.trans (by decide)⟩

/-- C14: when the axis is in range and the operand K can be captured, shape
resolution fails with "K value is out of bound" if and only if both `K` and
the axis dimension of X are literal and `K` is at least that dimension;
otherwise (in particular when `K` or the axis dimension is known only at run
time) no bound is checked and resolution succeeds. -/
theorem computeShape_K_out_of_bound_iff (X : DimsExpr) (axisAttr : Int) (kIE : IndexExpr)
    (outputsDims : Nat → DimsExpr)
    (haxis : -(X.length : Int) ≤ axisAttr ∧ axisAttr < X.length) (hk : kIE ≠ .undefined) :
    ((ONNXTopKOpShapeHelper.computeShape X axisAttr kIE outputsDims).1 =
        .failure "K value is out of bound" ↔
      ∃ k d, kIE = .literal k ∧
        X[(normalizeAxis axisAttr X.length).toNat]? = some (.literal d) ∧ k ≥ d) ∧
    ((ONNXTopKOpShapeHelper.computeShape X axisAttr kIE outputsDims).1 = .success ↔
      ¬ ∃ k d, kIE = .literal k ∧
        X[(normalizeAxis axisAttr X.length).toNat]? = some (.literal d) ∧ k ≥ d) ∧
    ((kIE = .dynamic ∨ X[(normalizeAxis axisAttr X.length).toNat]? = some .dynamic) →
      (ONNXTopKOpShapeHelper.computeShape X axisAttr kIE outputsDims).1 = .success) := by
  have ha : normalizeAxis axisAttr X.length ≥ 0 ∧ normalizeAxis axisAttr X.length < X.length := by
    unfold normalizeAxis
    split <;> omega
  by_cases hb : ∃ k d, kIE = .literal k ∧
      X[(normalizeAxis axisAttr X.length).toNat]? = some (.literal d) ∧ k ≥ d
  · rw [computeShape_bound X axisAttr kIE outputsDims ha hb]
    refine ⟨⟨fun _ => hb, fun _ => rfl⟩, ⟨fun h => by simp at h, fun h => absurd hb h⟩,
      fun hdyn => ?_⟩
    obtain ⟨k, d, hk1, hd1, _⟩ := hb
    rcases hdyn with h | h
    · rw [hk1] at h; cases h
    · rw [hd1] at h; cases h
  · rw [computeShape_ok X axisAttr kIE outputsDims ha hk hb]
    exact ⟨⟨fun h => by simp at h, fun h => absurd h hb⟩, ⟨fun _ => hb, fun _ => rfl⟩,
      fun _ => rfl⟩

/-- Witness of C14: on X of shape (3, 6) and axis 1, K = 6 fails with "K value
is out of bound", and a K known only at run time succeeds. -/
theorem computeShape_K_out_of_bound_iff_witness :
    (ONNXTopKOpShapeHelper.computeShape [.literal 3, .literal 6] 1 (.literal 6)
        (fun _ => [])).1 = .failure "K value is out of bound" ∧
      (ONNXTopKOpShapeHelper.computeShape [.literal 3, .literal 6] 1 .dynamic
        (fun _ => [])).1 = .success :=
  ⟨(computeShape_K_out_of_bound_iff [.literal 3, .literal 6] 1 (.literal 6) (fun _ => [])
      (by decide) (by decide)).1.2 ⟨6, 6, rfl, by decide, by decide⟩,
    (computeShape_K_out_of_bound_iff [.literal 3, .literal 6] 1 .dynamic (fun _ => [])
      (by decide) (by decide)).2.2 (Or.inl rfl)⟩

/-- C15 fails on the code: on X of shape (3, 6), axis 1, K = 2 and a helper whose
two output slots are empty, the call succeeds and records (3, 2) at output 0,
while the slot of output 1 is still empty. -/
theorem computeShape_records_output0_only_example :
    (ONNXTopKOpShapeHelper.computeShape [.literal 3, .literal 6] 1 (.literal 2)
        (fun _ => [])).1 = .success ∧
      (ONNXTopKOpShapeHelper.computeShape [.literal 3, .literal 6] 1 (.literal 2)
        (fun _ => [])).2 0 = [.literal 3, .literal 2] ∧
      (ONNXTopKOpShapeHelper.computeShape [.literal 3, .literal 6] 1 (.literal 2)
        (fun _ => [])).2 1 = [] ∧
      (ONNXTopKOpShapeHelper.computeShape [.literal 3, .literal 6] 1 (.literal 2)
        (fun _ => [])).2 1 ≠
      (ONNXTopKOpShapeHelper.computeShape [.literal 3, .literal 6] 1 (.literal 2)
        (fun _ => [])).2 0 := by
  refine ⟨by decide, by decide, by decide, by decide⟩

/-- C15 as amended: whenever TopK shape resolution succeeds, one resolved shape
is recorded, at output 0: the input shape with the axis dimension replaced by
`K`.  The storage of every other output, the indices output included, is left
as it was; the values and the indices output share the sequence of output 0. -/
theorem computeShape_records_output0_only (X : DimsExpr) (axisAttr : Int) (kIE : IndexExpr)
    (outputsDims outputsDims' : Nat → DimsExpr)
    (h : ONNXTopKOpShapeHelper.computeShape X axisAttr kIE outputsDims =
      (.success, outputsDims')) :
    outputsDims' 0 = X.set (normalizeAxis axisAttr X.length).toNat kIE ∧
      ∀ n, n ≠ 0 → outputsDims' n = outputsDims n := by
  obtain ⟨_, _, _, hs⟩ := computeShape_success_inv X axisAttr kIE outputsDims outputsDims' h
  refine ⟨by rw [hs]; simp, fun n hn => ?_⟩
  rw [hs, Function.update_noteq hn]

/-- Witness of the amended C15: X of shape (3, 6), axis 1, K = 2. -/
theorem computeShape_records_output0_only_witness :
    ∃ outputsDims', ONNXTopKOpShapeHelper.computeShape [.literal 3, .literal 6] 1 (.literal 2)
        (fun _ => []) = (.success, outputsDims') ∧
      outputsDims' 0 = [.literal 3, .literal 2] ∧ outputsDims' 1 = [] :=
  have h := computeShape_records_output0_only [.literal 3, .literal 6] 1 (.literal 2)
    (fun _ => []) _ rfl
  ⟨_, rfl, h.1.trans (by decide), h.2 1 (by decide)⟩

/-- C16: for a rank `r ≥ 1` and an axis attribute in `[-r, r)`, the normalized
axis is `axis + r` for a negative axis and `axis` otherwise, it lies in
`[0, r)`, and the attributes `axis` and `axis - r` (for `axis` in `[0, r)`)
normalize to the same dimension. -/
theorem normalizeAxis_range (r axis : Int) (_hr : 1 ≤ r) (hlo : -r ≤ axis) (hhi : axis < r) :
    (axis < 0 → normalizeAxis axis r = axis + r) ∧
      (0 ≤ axis → normalizeAxis axis r = axis) ∧
      (0 ≤ normalizeAxis axis r ∧ normalizeAxis axis r < r) ∧
      (0 ≤ axis → normalizeAxis (axis - r) r = normalizeAxis axis r) := by
  unfold normalizeAxis
  refine ⟨fun h => by rw [if_pos h], fun h => by rw [if_neg (by omega)], ?_, fun h => ?_⟩
  · split <;> omega
  · rw [if_pos (by omega), if_neg (by omega)]
    omega

/-- Witness of C16: rank 2, axis -1 and axis 1 both normalize to 1. -/
theorem normalizeAxis_range_witness :
    normalizeAxis (-1) 2 = 1 ∧ normalizeAxis 1 2 = 1 :=
  ⟨by
    have h := (normalizeAxis_range 2 (-1) (by decide) (by decide) (by decide)).1 (by decide)
    exact h.trans (by decide),
   (normalizeAxis_range 2 1 (by decide) (by decide) (by decide)).2.1 (by decide)⟩

/-- C17 fails on the code: on X of shape (3, 6) the axis attribute 2 lies outside
`[-2, 2)`, and `computeShape` ends in the failed assertion "axis is out of
bound", not in a failure result returned to the caller. -/
theorem computeShape_axis_out_of_range_example :
    (ONNXTopKOpShapeHelper.computeShape [.literal 3, .literal 6] 2 (.literal 2)
        (fun _ => [])).1 = .assertFailed "axis is out of bound" ∧
      ∀ diagnostic, (ONNXTopKOpShapeHelper.computeShape [.literal 3, .literal 6] 2
        (.literal 2) (fun _ => [])).1 ≠ .failure diagnostic := by
  have h : (ONNXTopKOpShapeHelper.computeShape [.literal 3, .literal 6] 2 (.literal 2)
      (fun _ => [])).1 = .assertFailed "axis is out of bound" := by decide
  refine ⟨h, fun diagnostic hd => ?_⟩
  rw [h] at hd
  cases hd

/-- C17 as amended: for every TopK invocation whose axis attribute lies outside
`[-rank, rank)`, `computeShape` stops at the assertion "axis is out of bound"
(an abort, with assertions enabled), before the operand K is looked at and
before any output shape is recorded: the storage of the output shapes is
unchanged. -/
theorem computeShape_axis_out_of_range (X : DimsExpr) (axisAttr : Int) (kIE : IndexExpr)
    (outputsDims : Nat → DimsExpr)
    (haxis : axisAttr < -(X.length : Int) ∨ (X.length : Int) ≤ axisAttr) :
    ONNXTopKOpShapeHelper.computeShape X axisAttr kIE outputsDims =
      (.assertFailed "axis is out of bound", outputsDims) := by
  apply computeShape_assert
  unfold normalizeAxis
  split <;> omega

/-- Witness of the amended C17: X of shape (3, 6), axis attribute -3. -/
theorem computeShape_axis_out_of_range_witness :
    (ONNXTopKOpShapeHelper.computeShape [.literal 3, .literal 6] (-3) (.literal 2)
        (fun _ => [])).1 = .assertFailed "axis is out of bound" :=
  congrArg Prod.fst (computeShape_axis_out_of_range [.literal 3, .literal 6] (-3) (.literal 2)
    (fun _ => []) (Or.inl (by decide)))

/-- C20: resolving the same TopK operator a second time with the same inputs
gives the same outcome and leaves the same recorded shapes: the state after two
calls is the state after one (the second call overwrites output 0). -/
theorem computeShape_idempotent (X : DimsExpr) (axisAttr : Int) (kIE : IndexExpr)
    (outputsDims : Nat → DimsExpr) :
    ONNXTopKOpShapeHelper.computeShape X axisAttr kIE
        (ONNXTopKOpShapeHelper.computeShape X axisAttr kIE outputsDims).2 =
      ONNXTopKOpShapeHelper.computeShape X axisAttr kIE outputsDims := by
  by_cases ha : normalizeAxis axisAttr X.length ≥ 0 ∧
      normalizeAxis axisAttr X.length < X.length
  · by_cases hk : kIE = .undefined
    · subst hk
      rw [computeShape_undefined X axisAttr outputsDims ha, computeShape_undefined X axisAttr _ ha]
    · by_cases hb : ∃ k d, kIE = .literal k ∧
          X[(normalizeAxis axisAttr X.length).toNat]? = some (.literal d) ∧ k ≥ d
      · rw [computeShape_bound X axisAttr kIE outputsDims ha hb,
          computeShape_bound X axisAttr kIE _ ha hb]
      · rw [computeShape_ok X axisAttr kIE outputsDims ha hk hb,
          computeShape_ok X axisAttr kIE _ ha hk hb]
        simp
  · rw [computeShape_assert X axisAttr kIE outputsDims ha,
      computeShape_assert X axisAttr kIE _ ha]

/-! ## Slice.cpp: load and store indices -/

theorem sliceIndices_take (starts steps inductionVars : List Int) (m : Nat)
    (hi : m ≤ inductionVars.length) (hs : m ≤ starts.length) (ht : m ≤ steps.length) :
    (List.range m).foldlM (sliceIndexStep starts steps inductionVars) ([], []) =
      some ((List.range m).map
          (fun d => steps.getD d 0 * inductionVars.getD d 0 + starts.getD d 0),
        inductionVars.take m) := by
  induction m with
  | zero => rfl
  | succ m ih =>
    have h1 : m < inductionVars.length := by omega
    have h2 : m < starts.length := by omega
    have h3 : m < steps.length := by omega
    rw [List.range_succ, List.foldlM_append, ih (by omega) (by omega) (by omega)]
    simp only [Option.bind_eq_bind, Option.some_bind, List.foldlM_cons, List.foldlM_nil,
      sliceIndexStep, List.getElem?_eq_getElem h1, List.getElem?_eq_getElem h2,
      List.getElem?_eq_getElem h3, Option.pure_def, List.map_append, List.map_cons,
      List.map_nil, List.getD_eq_getElem?_getD, Option.getD_some]
    rw [List.take_succ, List.getElem?_eq_getElem h1]
    rfl

theorem sliceIndices_eq (starts steps inductionVars : List Int) (r : Nat)
    (hi : inductionVars.length = r) (hs : starts.length = r) (ht : steps.length = r) :
    sliceIndices starts steps r inductionVars =
      some ((List.range r).map
          (fun d => steps.getD d 0 * inductionVars.getD d 0 + starts.getD d 0),
        inductionVars) := by
  unfold sliceIndices
  rw [sliceIndices_take starts steps inductionVars r (by omega) (by omega) (by omega)]
  rw [← hi, List.take_length]

theorem foldl_pair_trace {ι σ τ : Type} (F : σ → ι → σ) (G : ι → τ) (L : List ι) (C : σ)
    (T : List τ) :
    L.foldl (fun state o => (F state.1 o, state.2 ++ [G o])) (C, T) =
      (L.foldl F C, T ++ L.map G) := by
  induction L generalizing C T with
  | nil => simp
  | cons o L ih => simp [ih]

theorem forall₂_length_lt (o ubs : List Nat) (h : List.Forall₂ (fun i ub => i < ub) o ubs) :
    o.length = ubs.length :=
  h.length_eq

/-- C18: in the slice lowering, for every output index tuple within the output
bounds, the element stored at that output position is the source element at
position `step_d * i_d + start_d` on every axis `d`; the store index is the
induction tuple itself, and the pairs (load index, store index) are produced in
the row-major order of the output index tuples. -/
theorem slice_load_store {α : Type} (data : List Int → α) (starts steps : List Int)
    (dimsForOutput : List Nat) (alloc : List Int → α)
    (hs : starts.length = dimsForOutput.length) (ht : steps.length = dimsForOutput.length) :
    ∃ out accesses,
      ONNXSliceOpLowering.matchAndRewrite data starts steps dimsForOutput alloc =
        some (out, accesses) ∧
      accesses = (iterSpace dimsForOutput).map (fun o =>
        ((List.range dimsForOutput.length).map (fun d =>
            steps.getD d 0 * (o.map (fun v : Nat => (v : Int))).getD d 0 + starts.getD d 0),
          o.map (fun v : Nat => (v : Int)))) ∧
      ∀ o, List.Forall₂ (fun i ub => i < ub) o dimsForOutput →
        out (o.map (fun v : Nat => (v : Int))) =
          data ((List.range dimsForOutput.length).map (fun d =>
            steps.getD d 0 * (o.map (fun v : Nat => (v : Int))).getD d 0 + starts.getD d 0)) := by
  have hidx : ∀ o ∈ iterSpace dimsForOutput,
      sliceIndices starts steps dimsForOutput.length (o.map (fun v : Nat => (v : Int))) =
        some ((List.range dimsForOutput.length).map (fun d =>
            steps.getD d 0 * (o.map (fun v : Nat => (v : Int))).getD d 0 + starts.getD d 0),
          o.map (fun v : Nat => (v : Int))) := by
    intro o ho
    have hlen := forall₂_length_lt o dimsForOutput ((mem_iterSpace _ _).1 ho)
    exact sliceIndices_eq starts steps _ _ (by simpa using hlen) hs ht
  have hrun : ONNXSliceOpLowering.matchAndRewrite data starts steps dimsForOutput alloc =
      some ((iterSpace dimsForOutput).foldl (fun state o =>
        (Function.update state.1 (o.map (fun v : Nat => (v : Int)))
          (data ((List.range dimsForOutput.length).map (fun d =>
            steps.getD d 0 * (o.map (fun v : Nat => (v : Int))).getD d 0 + starts.getD d 0))),
         state.2 ++ [((List.range dimsForOutput.length).map (fun d =>
            steps.getD d 0 * (o.map (fun v : Nat => (v : Int))).getD d 0 + starts.getD d 0),
          o.map (fun v : Nat => (v : Int)))])) (alloc, [])) := by
    unfold ONNXSliceOpLowering.matchAndRewrite
    apply foldlM_some
    intro state o ho
    show (sliceIndices starts steps dimsForOutput.length
      (o.map (fun v : Nat => (v : Int)))).bind
        (fun indices => some (Function.update state.1 indices.2 (data indices.1),
          state.2 ++ [indices])) = _
    rw [hidx o ho]
    rfl
  rw [foldl_pair_trace
    (fun (C : List Int → α) (o : List Nat) => Function.update C (o.map (fun v : Nat => (v : Int)))
      (data ((List.range dimsForOutput.length).map (fun d =>
        steps.getD d 0 * (o.map (fun v : Nat => (v : Int))).getD d 0 + starts.getD d 0))))
    (fun o => ((List.range dimsForOutput.length).map (fun d =>
        steps.getD d 0 * (o.map (fun v : Nat => (v : Int))).getD d 0 + starts.getD d 0),
      o.map (fun v : Nat => (v : Int))))] at hrun
  refine ⟨_, _, hrun, by simp, fun o ho => ?_⟩
  have hmem : o.map (fun v : Nat => (v : Int)) ∈
      (iterSpace dimsForOutput).map (fun o => o.map (fun v : Nat => (v : Int))) :=
    List.mem_map_of_mem _ ((mem_iterSpace _ _).2 ho)
  have hfold := (foldl_update_at
    (fun s : List Int => data ((List.range dimsForOutput.length).map (fun d =>
      steps.getD d 0 * s.getD d 0 + starts.getD d 0)))
    ((iterSpace dimsForOutput).map (fun o => o.map (fun v : Nat => (v : Int)))) alloc
    (o.map (fun v : Nat => (v : Int)))).1 hmem
  rw [List.foldl_map] at hfold
  exact hfold

/-- Witness of C18: a rank-1 source, start 2, step 3, three output elements: the
source indices 2, 5, 8 are read in that order and written to the output indices
0, 1, 2; with `data[i] = 10 i` the output element 1 is 50. -/
theorem slice_load_store_witness :
    ∃ out accesses,
      ONNXSliceOpLowering.matchAndRewrite (fun idx : List Int => 10 * idx.getD 0 0)
        [2] [3] [3] (fun _ => -1) = some (out, accesses) ∧
      accesses = [([2], [0]), ([5], [1]), ([8], [2])] ∧
      out [1] = 50 := by
  obtain ⟨out, accesses, hrun, hacc, hout⟩ := slice_load_store
    (fun idx : List Int => 10 * idx.getD 0 0) [2] [3] [3] (fun _ => -1) rfl rfl
  refine ⟨out, accesses, hrun, hacc.trans (by decide), ?_⟩
  exact (hout [1] (List.Forall₂.cons (by decide) List.Forall₂.nil)).trans (by decide)

/-! ## OMTensor.h: destruction -/

/-- C19: destroying a descriptor releases its data buffer if and only if its
ownership flag is true, and releases the size and the stride storage in every
case; a descriptor made by the rank constructor has the flag false, so it does
not release a buffer bound to it later. -/
theorem destroy_releases (omt : OMTensor) :
    (Released.data ∈ omt.destroy ↔ omt._owningData = true) ∧
      Released.dataSizes ∈ omt.destroy ∧ Released.dataStrides ∈ omt.destroy ∧
      ∀ (rank : Int) (mallocSizes mallocStrides : Nat) (undefinedType : Int) (t : OMTensor),
        OMTensor.create rank mallocSizes mallocStrides undefinedType = .ok t →
          t._owningData = false ∧
          ∀ data : Nat, Released.data ∉ ({ t with _data := data } : OMTensor).destroy := by
  refine ⟨?_, ?_, ?_, ?_⟩
  · unfold OMTensor.destroy
    cases omt._owningData <;> simp
  · unfold OMTensor.destroy; simp
  · unfold OMTensor.destroy; simp
  · intro rank mallocSizes mallocStrides undefinedType t ht
    unfold OMTensor.create at ht
    split at ht
    · cases ht
      exact ⟨rfl, fun data => by simp [OMTensor.destroy]⟩
    · cases ht

/-- Witness of C19: the descriptor made for rank 2 (sizes at address 100, strides
at 200), later bound to a buffer at address 300, releases only its size and
stride storage. -/
theorem destroy_releases_witness :
    ∃ t, OMTensor.create 2 100 200 0 = .ok t ∧ t._owningData = false ∧
      ({ t with _data := 300 } : OMTensor).destroy =
        [Released.dataSizes, Released.dataStrides] :=
  ⟨_, rfl,
    ((destroy_releases ⟨0, 0, 0, 0, 0, 0, 0, none, false⟩).2.2.2 2 100 200 0 _ rfl).1, rfl⟩

/-! ## TopK.cpp: validity of the resolved shape, failures -/

/-- C21 fails on the code: on X of shape (3, 6), axis 1 and the literal K = -1
the bound check `K >= 6` does not fire, resolution succeeds, and the resolved
shape is (3, -1), with a negative literal dimension. -/
theorem computeShape_negative_K :
    (ONNXTopKOpShapeHelper.computeShape [.literal 3, .literal 6] 1 (.literal (-1))
        (fun _ => [])).1 = .success ∧
      (ONNXTopKOpShapeHelper.computeShape [.literal 3, .literal 6] 1 (.literal (-1))
        (fun _ => [])).2 0 = [.literal 3, .literal (-1)] ∧
      (-1 : Int) < 0 := by
  refine ⟨by decide, by decide, by decide⟩

/-- C25: whenever TopK shape resolution returns an error (the operand K cannot be
captured, or K is out of bound), the recorded output dimensions are exactly as
they were before the call. -/
theorem computeShape_failure_keeps_dims (X : DimsExpr) (axisAttr : Int) (kIE : IndexExpr)
    (outputsDims : Nat → DimsExpr) (diagnostic : String)
    (h : (ONNXTopKOpShapeHelper.computeShape X axisAttr kIE outputsDims).1 =
      .failure diagnostic) :
    (ONNXTopKOpShapeHelper.computeShape X axisAttr kIE outputsDims).2 = outputsDims ∧
      (diagnostic = "K input parameter could not be processed" ∨
        diagnostic = "K value is out of bound") := by
  by_cases ha : normalizeAxis axisAttr X.length ≥ 0 ∧
      normalizeAxis axisAttr X.length < X.length
  · by_cases hk : kIE = .undefined
    · subst hk
      rw [computeShape_undefined X axisAttr outputsDims ha] at h ⊢
      simp only [ShapeResult.failure.injEq] at h
      exact ⟨rfl, Or.inl h.symm⟩
    · by_cases hb : ∃ k d, kIE = .literal k ∧
          X[(normalizeAxis axisAttr X.length).toNat]? = some (.literal d) ∧ k ≥ d
      · rw [computeShape_bound X axisAttr kIE outputsDims ha hb] at h ⊢
        simp only [ShapeResult.failure.injEq] at h
        exact ⟨rfl, Or.inr h.symm⟩
      · rw [computeShape_ok X axisAttr kIE outputsDims ha hk hb] at h
        simp at h
  · rw [computeShape_assert X axisAttr kIE outputsDims ha] at h
    simp at h

/-- Witness of C25: on X of shape (3, 6), axis 1, the literal K = 6 is out of
bound, and the slot of output 0, which held (7), still holds (7). -/
theorem computeShape_failure_keeps_dims_witness :
    (ONNXTopKOpShapeHelper.computeShape [.literal 3, .literal 6] 1 (.literal 6)
        (fun _ => [.literal 7])).1 = .failure "K value is out of bound" ∧
      (ONNXTopKOpShapeHelper.computeShape [.literal 3, .literal 6] 1 (.literal 6)
        (fun _ => [.literal 7])).2 = (fun _ => [.literal 7]) :=
  ⟨by decide,
    (computeShape_failure_keeps_dims [.literal 3, .literal 6] 1 (.literal 6)
      (fun _ => [.literal 7]) "K value is out of bound" (by decide)).1⟩

/-! ## MatMul.cpp: more on the tile selection -/

theorem blockStarts_mem (ub tile j1 : Nat) (h : j1 ∈ blockStarts ub tile) :
    ∃ b, b < (ub + tile - 1) / tile ∧ j1 = b * tile := by
  unfold blockStarts at h
  simp only [List.mem_map, List.mem_range] at h
  obtain ⟨b, hb, rfl⟩ := h
  exact ⟨b, hb, rfl⟩

/-- When the block size divides the bound, every block is a full block. -/
theorem tileRange_full (ub tile j1 : Nat) (hdvd : tile ∣ ub) (h : j1 ∈ blockStarts ub tile) :
    (tileRange j1 tile ub).length = tile := by
  obtain ⟨b, hb, rfl⟩ := blockStarts_mem ub tile j1 h
  obtain ⟨q, rfl⟩ := hdvd
  unfold tileRange
  rw [List.length_range']
  rcases Nat.eq_zero_or_pos tile with h0 | hpos
  · subst h0; simp
  · have hbq : b < q := by
      have h1 : (tile * q + tile - 1) / tile = q := by
        have h2 : tile * q + tile - 1 = (tile - 1) + tile * q := by omega
        rw [h2, Nat.add_mul_div_left _ _ hpos, Nat.div_eq_of_lt (by omega)]
        simp
      rw [h1] at hb
      exact hb
    have hle : b * tile + tile ≤ tile * q := by
      have h3 : (b + 1) * tile ≤ q * tile := Nat.mul_le_mul_right _ hbq
      rw [Nat.mul_comm tile q]
      rw [Nat.succ_mul] at h3
      exact h3
    omega

/-- C22: for every literal column count J with `J mod 4 = 0` and `J ≤ 32`, the
column block size chosen by the specialized dense path divides J, so that the
blocked J loop of a dimension of that size has only full blocks, no partial
tail block. -/
theorem jRegTile_dvd (dimI dimK : IndexExpr) (constJ : Int) (h4 : 4 ∣ constJ)
    (h32 : constJ ≤ 32) :
    (regTiles dimI (.literal constJ) dimK).jRegTile ∣ constJ ∧
      ∀ J : Nat, (J : Int) = constJ →
        ∀ j1 ∈ blockStarts J (regTiles dimI (.literal constJ) dimK).jRegTile.toNat,
          (tileRange j1 (regTiles dimI (.literal constJ) dimK).jRegTile.toNat J).length =
            (regTiles dimI (.literal constJ) dimK).jRegTile.toNat := by
  have hdvd : (regTiles dimI (.literal constJ) dimK).jRegTile ∣ constJ := by
    rw [regTiles_jRegTile]
    simp only
    by_cases h8 : constJ.tmod 8 = 0
    · rw [if_neg (fun h => h.1 h8)]
      exact Int.dvd_of_tmod_eq_zero h8
    · rw [if_pos ⟨h8, Int.tmod_eq_zero_of_dvd h4, h32⟩]
      exact h4
  refine ⟨hdvd, fun J hJ j1 hj1 => ?_⟩
  apply tileRange_full _ _ _ _ hj1
  have hpos : 0 ≤ (regTiles dimI (.literal constJ) dimK).jRegTile := by
    rw [regTiles_jRegTile]
    simp only
    split <;> decide
  have h1 : (((regTiles dimI (.literal constJ) dimK).jRegTile.toNat : Nat) : Int) ∣ (J : Int) := by
    rw [Int.toNat_of_nonneg hpos, hJ]
    exact hdvd
  exact Int.natCast_dvd_natCast.1 h1

/-- Witness of C22: the literal J = 12 gets the block size 4, which divides 12,
and the three blocks that start at 0, 4, 8 are full. -/
theorem jRegTile_dvd_witness :
    (regTiles (.literal 4) (.literal 12) (.literal 3)).jRegTile = 4 ∧
      blockStarts 12 4 = [0, 4, 8] ∧
      (tileRange 8 (regTiles (.literal 4) (.literal 12) (.literal 3)).jRegTile.toNat 12).length =
        (regTiles (.literal 4) (.literal 12) (.literal 3)).jRegTile.toNat :=
  ⟨by decide, by decide,
    (jRegTile_dvd (.literal 4) (.literal 3) 12 (by decide) (by decide)).2 12 rfl 8 (by decide)⟩

/-- C30: in the specialized dense path, when each of I, J, K is either not
literal or a literal of value at least 1, the block sizes satisfy
`1 ≤ iTile ≤ 4`, `jTile ∈ {4, 8}` and `1 ≤ kTile ≤ 8`; a dimension that is not
literal keeps its default block size (4, 8, 8), and a literal dimension never
makes its block size larger than the default. -/
theorem regTiles_bounds (dimI dimJ dimK : IndexExpr)
    (hI : ∀ c, dimI = .literal c → 1 ≤ c) (hJ : ∀ c, dimJ = .literal c → 1 ≤ c)
    (hK : ∀ c, dimK = .literal c → 1 ≤ c) :
    (1 ≤ (regTiles dimI dimJ dimK).iRegTile ∧ (regTiles dimI dimJ dimK).iRegTile ≤ 4) ∧
      ((regTiles dimI dimJ dimK).jRegTile = 4 ∨ (regTiles dimI dimJ dimK).jRegTile = 8) ∧
      (1 ≤ (regTiles dimI dimJ dimK).kRegTile ∧ (regTiles dimI dimJ dimK).kRegTile ≤ 8) ∧
      (dimI.isLiteral = false → (regTiles dimI dimJ dimK).iRegTile = 4) ∧
      (dimJ.isLiteral = false → (regTiles dimI dimJ dimK).jRegTile = 8) ∧
      (dimK.isLiteral = false → (regTiles dimI dimJ dimK).kRegTile = 8) := by
  have _hJ := hJ
  rw [regTiles_iRegTile, regTiles_jRegTile, regTiles_kRegTile]
  refine ⟨?_, ?_, ?_, ?_, ?_, ?_⟩
  · cases dimI with
    | undefined => decide
    | dynamic => decide
    | literal c =>
      have h1 := hI c rfl
      simp only
      split <;> omega
  · cases dimJ with
    | undefined => right; rfl
    | dynamic => right; rfl
    | literal c =>
      simp only
      split
      · left; rfl
      · right; rfl
  · cases dimK with
    | undefined => decide
    | dynamic => decide
    | literal c =>
      have h1 := hK c rfl
      simp only
      split <;> omega
  · cases dimI with
    | undefined => intro _; rfl
    | dynamic => intro _; rfl
    | literal c => intro h; simp [IndexExpr.isLiteral] at h
  · cases dimJ with
    | undefined => intro _; rfl
    | dynamic => intro _; rfl
    | literal c => intro h; simp [IndexExpr.isLiteral] at h
  · cases dimK with
    | undefined => intro _; rfl
    | dynamic => intro _; rfl
    | literal c => intro h; simp [IndexExpr.isLiteral] at h

/-- Witness of C30: I = 3 literal, J not literal, K = 20 literal give the block
sizes 3, 8, 8. -/
theorem regTiles_bounds_witness :
    regTiles (.literal 3) .dynamic (.literal 20) =
      { iRegTile := 3, jRegTile := 8, kRegTile := 8 } ∧
    (1 ≤ (regTiles (.literal 3) .dynamic (.literal 20)).iRegTile ∧
      (regTiles (.literal 3) .dynamic (.literal 20)).iRegTile ≤ 4) :=
  ⟨by decide,
    (regTiles_bounds (.literal 3) .dynamic (.literal 20)
      (fun c h => by cases h; decide) (fun c h => by cases h)
      (fun c h => by cases h; decide)).1⟩

/-! ## MatMul.cpp: zero initialisation of the dense path -/

/-- C24: in the specialized dense path every element of the output buffer is set
to zero before the first block accumulates into it, so the final output does
not depend on what the output buffer held before: two runs that differ only in
the initial output buffer give the same output, and every element within the
bounds is the accumulation that starts from zero. -/
theorem replace2x2Matmul2d_alloc_independent {α : Type} (add mul : α → α → α) (zeroVal : α)
    (A B : Tensor α) (dI dJ dK : Dim) (alloc1 alloc2 : Tensor α) :
    (∀ p, krnlMemset alloc1 zeroVal p = zeroVal) ∧
      replace2x2Matmul2d add mul zeroVal A B dI dJ dK alloc1 =
        replace2x2Matmul2d add mul zeroVal A B dI dJ dK alloc2 ∧
      ∀ i j, i < dI.size → j < dJ.size →
        replace2x2Matmul2d add mul zeroVal A B dI dJ dK alloc1 [i, j] =
          (List.range dK.size).foldl
            (fun acc k => add acc (mul (A [i, k]) (B [k, j]))) zeroVal := by
  refine ⟨fun _ => rfl, rfl, fun i j hi hj => ?_⟩
  exact replace2x2Matmul2d_read add mul zeroVal A B dI dJ dK alloc1 i j hi hj

/-! ## MatMul.cpp: the loops of the generic path -/

/-- C23: the generic path defines exactly (output rank + 1) loops; every loop
has the lower bound 0; the upper bound of the outer loop `i` is the output
dimension `i`, for each `i` below the output rank; and the single innermost
(reduction) loop has as upper bound the last dimension of the padded shape of
A. -/
theorem genericLoops_bounds (dimsForOutput aDims : DimsExpr) (ha : aDims ≠ []) :
    ∃ loops, genericLoops dimsForOutput aDims = some loops ∧
      loops.totLoopNum = dimsForOutput.length + 1 ∧
      loops.loopLbs.length = loops.totLoopNum ∧
      (∀ lb ∈ loops.loopLbs, lb = IndexExpr.literal 0) ∧
      loops.loopUbs.length = loops.totLoopNum ∧
      (∀ i, i < dimsForOutput.length → loops.loopUbs[i]? = dimsForOutput[i]?) ∧
      loops.loopUbs[dimsForOutput.length]? = aDims.getLast? ∧
      loops.outerLoops = List.range dimsForOutput.length ∧
      loops.innerLoop = dimsForOutput.length := by
  have hlen : aDims.length ≠ 0 := by
    intro h; exact ha (List.length_eq_zero.1 h)
  have hlt : aDims.length - 1 < aDims.length := by omega
  have hlast : aDims.getLast? = some aDims[aDims.length - 1] := by
    rw [List.getLast?_eq_getElem?, List.getElem?_eq_getElem hlt]
  unfold genericLoops
  simp only [hlen, if_false, List.getElem?_eq_getElem hlt]
  refine ⟨_, rfl, rfl, by simp, ?_, by simp, fun i hi => ?_, ?_, rfl, by simp⟩
  · intro lb hlb
    exact List.eq_of_mem_replicate hlb
  · have h1 : i < ((List.range dimsForOutput.length).map
        (fun i => dimsForOutput.getD i IndexExpr.undefined)).length := by simpa using hi
    have hr : (List.range dimsForOutput.length)[i]? = some i := by
      rw [List.getElem?_eq_getElem (by simpa using hi)]; simp
    rw [List.getElem?_append_left h1, List.getElem?_map, hr]
    simp [List.getElem?_eq_getElem hi, List.getD_eq_getElem?_getD]
  · rw [List.getElem?_append_right (by simp)]
    simp [hlast]

/-- Witness of C23: output shape (10, 4) and padded A shape (1, 5): three loops,
lower bounds 0, upper bounds 10, 4 and 5. -/
theorem genericLoops_bounds_witness :
    genericLoops [.literal 10, .literal 4] [.literal 1, .literal 5] =
      some { totLoopNum := 3
             loopLbs := [.literal 0, .literal 0, .literal 0]
             loopUbs := [.literal 10, .literal 4, .literal 5]
             outerLoops := [0, 1]
             innerLoop := 2 } := by
  obtain ⟨loops, h, _⟩ := genericLoops_bounds [.literal 10, .literal 4]
    [.literal 1, .literal 5] (by decide)
  rw [h]
  exact h.symm.trans (by decide)

/-! ## Slice.cpp: the load index stays inside the sliced range -/

theorem ceil_div_bounds (start stop step n i : Int) (hstep : 1 ≤ step)
    (hn : n = ⌈((stop - start : Int) : ℚ) / ((step : Int) : ℚ)⌉) (hi : i < n) :
    step * i + start < stop ∧ stop ≤ step * n + start := by
  have hpos : (0 : ℚ) < (step : ℚ) := by exact_mod_cast (by omega : (0 : Int) < step)
  constructor
  · have h1 : ((i : Int) : ℚ) < ((stop - start : Int) : ℚ) / ((step : Int) : ℚ) := by
      rw [← Int.lt_ceil, ← hn]; exact hi
    rw [lt_div_iff₀ hpos] at h1
    have h2 : i * step < stop - start := by exact_mod_cast h1
    nlinarith
  · have h1 : ((stop - start : Int) : ℚ) / ((step : Int) : ℚ) ≤ ((n : Int) : ℚ) := by
      rw [hn]; exact Int.le_ceil _
    rw [div_le_iff₀ hpos] at h1
    have h2 : stop - start ≤ n * step := by exact_mod_cast h1
    nlinarith

/-- C26: for every axis of size `dim` with `step ≥ 1` and
`0 ≤ start ≤ stop ≤ dim`, when the output dimension size is
`n = ceil((stop - start) / step)`, every output index `i` in `[0, n)` is mapped
by the slice lowering to the load index `step * i + start`, which lies in
`[start, stop)` and hence in `[0, dim)`; the index `n` would fall at or beyond
`stop`. -/
theorem slice_load_in_range (starts stops steps dims outs inductionVars : List Int) (r : Nat)
    (hs : starts.length = r) (ht : steps.length = r) (hi : inductionVars.length = r)
    (hax : ∀ d, d < r → 1 ≤ steps.getD d 0 ∧ 0 ≤ starts.getD d 0 ∧
      starts.getD d 0 ≤ stops.getD d 0 ∧ stops.getD d 0 ≤ dims.getD d 0 ∧
      outs.getD d 0 =
        ⌈((stops.getD d 0 - starts.getD d 0 : Int) : ℚ) / ((steps.getD d 0 : Int) : ℚ)⌉)
    (hin : ∀ d, d < r → 0 ≤ inductionVars.getD d 0 ∧ inductionVars.getD d 0 < outs.getD d 0) :
    ∃ loadIndices, sliceIndices starts steps r inductionVars =
        some (loadIndices, inductionVars) ∧
      loadIndices.length = r ∧
      ∀ d, d < r →
        loadIndices.getD d 0 = steps.getD d 0 * inductionVars.getD d 0 + starts.getD d 0 ∧
        (starts.getD d 0 ≤ loadIndices.getD d 0 ∧ loadIndices.getD d 0 < stops.getD d 0) ∧
        (0 ≤ loadIndices.getD d 0 ∧ loadIndices.getD d 0 < dims.getD d 0) ∧
        stops.getD d 0 ≤ steps.getD d 0 * outs.getD d 0 + starts.getD d 0 := by
  refine ⟨_, sliceIndices_eq starts steps inductionVars r hi hs ht, by simp, fun d hd => ?_⟩
  obtain ⟨hstep, hstart, _, hdim, hn⟩ := hax d hd
  obtain ⟨h0, hlt⟩ := hin d hd
  obtain ⟨hb1, hb2⟩ := ceil_div_bounds _ _ _ _ _ hstep hn hlt
  have hload : ((List.range r).map
      (fun d => steps.getD d 0 * inductionVars.getD d 0 + starts.getD d 0)).getD d 0 =
        steps.getD d 0 * inductionVars.getD d 0 + starts.getD d 0 := by
    rw [List.getD_eq_getElem?_getD, List.getElem?_map,
      List.getElem?_eq_getElem (by simpa using hd)]
    simp
  rw [hload]
  have hmul : 0 ≤ steps.getD d 0 * inductionVars.getD d 0 :=
    Int.mul_nonneg (by omega) h0
  refine ⟨rfl, ⟨by omega, hb1⟩, ⟨by omega, by omega⟩, hb2⟩

/-- Witness of C26: one axis of size 10, start 2, stop 10, step 3, so
`n = ceil(8 / 3) = 3`; the output index 2 loads the source index 8. -/
theorem slice_load_in_range_witness :
    ∃ loadIndices, sliceIndices [2] [3] 1 [2] = some (loadIndices, [2]) ∧
      loadIndices = [8] := by
  obtain ⟨loadIndices, h, _, _⟩ := slice_load_in_range [2] [10] [3] [10] [3] [2] 1 rfl rfl rfl
    (fun d hd => by
      have hd0 : d = 0 := by omega
      subst hd0
      refine ⟨by decide, by decide, by decide, by decide, ?_⟩
      simp only [List.getD_cons_zero]
      rw [eq_comm, Int.ceil_eq_iff]
      norm_num)
    (fun d hd => by
      have hd0 : d = 0 := by omega
      subst hd0
      exact ⟨by decide, by decide⟩)
  refine ⟨loadIndices, h, ?_⟩
  have h2 : sliceIndices [2] [3] 1 [2] = some ([8], [2]) := by decide
  rw [h2] at h
  exact ((Prod.mk.inj (Option.some.inj h)).1).symm

/-! ## MatMul.cpp: the access construction reads existing outer indices -/

theorem padFlags_getElem? (p r i : Nat) (hi : i < r) :
    (List.replicate p true ++ List.replicate (r - p) false)[i]? = some (decide (i < p)) := by
  by_cases h : i < p
  · rw [List.getElem?_append_left (by simpa using h)]
    simp [List.getElem?_replicate, h]
  · rw [List.getElem?_append_right (by simpa using h)]
    simp [List.getElem?_replicate, h]
    omega

theorem accessStep_some (r oln pa pb : Nat) (hr : 2 ≤ r) (hpa : pa + 1 ≤ r)
    (holn : oln = if r - 2 < pa then r - 1 else r)
    (outerIndices : List Nat) (ho : outerIndices.length = oln) (k : Nat)
    (acc : List Nat × List Nat) (i : Nat) (hi : i < r) :
    ∃ a b, accessStep r oln (List.replicate pa true ++ List.replicate (r - pa) false)
        (List.replicate pb true ++ List.replicate (r - pb) false) outerIndices k acc i =
          some (a, b) ∧
      a.length = acc.1.length + (if i < pa then 0 else 1) ∧
      b.length = acc.2.length + (if i < pb then 0 else 1) := by
  have ha := padFlags_getElem? pa r i hi
  have hb := padFlags_getElem? pb r i hi
  have hread : ∀ j, j < oln → outerIndices[j]? = some (outerIndices.getD j 0) := by
    intro j hj
    rw [List.getD_eq_getElem?_getD, List.getElem?_eq_getElem (by omega)]
    rfl
  unfold accessStep
  simp only [ha, hb, Option.bind_eq_bind, Option.some_bind, Option.pure_def]
  have holn1 : r - 2 < pa → oln = r - 1 := fun h => by rw [holn, if_pos h]
  have holn2 : ¬ (r - 2 < pa) → oln = r := fun h => by rw [holn, if_neg h]
  by_cases hA : i < pa <;> by_cases hB : i < pb <;>
    simp only [hA, hB, decide_True, decide_False, Bool.not_true, Bool.not_false,
      Bool.false_eq_true, if_true, if_false] <;>
    (try split_ifs) <;>
    (try rw [hread (i - 1) (by omega)]) <;>
    (try rw [hread i (by omega)]) <;>
    (try simp only [Option.map_some', Option.some_bind]) <;>
    exact ⟨_, _, rfl, by simp, by simp⟩

theorem accessFcts_take_some (r oln pa pb : Nat) (hr : 2 ≤ r) (hpa : pa + 1 ≤ r)
    (holn : oln = if r - 2 < pa then r - 1 else r)
    (outerIndices : List Nat) (ho : outerIndices.length = oln) (k : Nat) (m : Nat)
    (hm : m ≤ r) :
    ∃ a b, (List.range m).foldlM
        (accessStep r oln (List.replicate pa true ++ List.replicate (r - pa) false)
          (List.replicate pb true ++ List.replicate (r - pb) false) outerIndices k) ([], []) =
          some (a, b) ∧
      a.length = m - pa ∧ b.length = m - pb := by
  induction m with
  | zero => exact ⟨[], [], rfl, by simp, by simp⟩
  | succ m ih =>
    obtain ⟨a, b, hfold, hla, hlb⟩ := ih (by omega)
    obtain ⟨a2, b2, hstep, hla2, hlb2⟩ :=
      accessStep_some r oln pa pb hr hpa holn outerIndices ho k (a, b) m (by omega)
    refine ⟨a2, b2, ?_, ?_, ?_⟩
    · rw [List.range_succ, List.foldlM_append, hfold]
      simp only [Option.bind_eq_bind, Option.some_bind, List.foldlM_cons, List.foldlM_nil]
      rw [hstep]
      rfl
    · rw [hla2, hla]
      split <;> omega
    · rw [hlb2, hlb]
      split <;> omega

/-- C27: in the generic path, for every padded rank `r ≥ 2`, with the padded
positions of A the leading `r - rank(A)` ones (`rank(A) ≥ 1`), B unpadded or
padded in leading positions only (`rank(B) ≥ 2`), and
`(r - 2) + (1 if position r - 2 of A is not padded) + 1` outer loops, the
construction of the access indices never reads the outer induction tuple at a
position that does not exist: it goes through, and yields `rank(A)` indices
for A and `rank(B)` indices for B. -/
theorem accessFcts_reads_in_range (r pa pb : Nat) (hr : 2 ≤ r) (hpa : pa + 1 ≤ r)
    (_hpb : pb + 2 ≤ r) (outerIndices : List Nat) (k : Nat)
    (ho : outerIndices.length =
      (r - 2) + (if (List.replicate pa true ++ List.replicate (r - pa) false).getD (r - 2) false
        then 0 else 1) + 1) :
    ∃ aAccessFct bAccessFct,
      accessFcts r outerIndices.length
          (List.replicate pa true ++ List.replicate (r - pa) false)
          (List.replicate pb true ++ List.replicate (r - pb) false) outerIndices k =
        some (aAccessFct, bAccessFct) ∧
      aAccessFct.length = r - pa ∧ bAccessFct.length = r - pb := by
  have hflag : (List.replicate pa true ++ List.replicate (r - pa) false).getD (r - 2) false =
      decide (r - 2 < pa) := by
    rw [List.getD_eq_getElem?_getD, padFlags_getElem? pa r (r - 2) (by omega)]
    rfl
  have holn : outerIndices.length = if r - 2 < pa then r - 1 else r := by
    rw [ho, hflag]
    by_cases h : r - 2 < pa
    · simp only [h, decide_True, if_true]; omega
    · simp only [h, decide_False, if_false, Bool.false_eq_true]; omega
  unfold accessFcts
  exact accessFcts_take_some r outerIndices.length pa pb hr hpa holn outerIndices rfl k r
    (le_refl r)

/-- Witness of C27: A of rank 1 and B of rank 3 (`r = 3`, two padded positions
of A, two outer loops): at the outer indices (7, 2) and `k = 3` the construction
yields `[3]` for A and `[7, 3, 2]` for B. -/
theorem accessFcts_reads_in_range_witness :
    ∃ aAccessFct bAccessFct,
      accessFcts 3 2 [true, true, false] [false, false, false] [7, 2] 3 =
        some (aAccessFct, bAccessFct) ∧
      aAccessFct.length = 1 ∧ bAccessFct.length = 3 :=
  accessFcts_reads_in_range 3 2 0 (by decide) (by decide) (by decide) [7, 2] 3 (by decide)

/-! ## MatMul.cpp: a real batch dimension of size 1 -/

/-- C28 at A of shape (1, 4, 5) and B of shape (10, 5, 6), no padded position,
output shape (10, 4, 6): the induction tuple (9, 3, 5) with `k = 4` is within
the loop bounds, and the access index generated for dimension 0 of A is 9,
which is not below the size 1 of that dimension. -/
theorem accessFcts_broadcast_batch :
    List.Forall₂ (fun i ub => i < ub) [9, 3, 5] [10, 4, 6] ∧ 4 < 5 ∧
      accessFcts 3 3 [false, false, false] [false, false, false] [9, 3, 5] 4 =
        some ([9, 3, 4], [9, 4, 5]) ∧
      ¬ List.Forall₂ (fun i ub => i < ub) [9, 3, 4] [1, 4, 5] ∧
      List.Forall₂ (fun i ub => i < ub) [9, 4, 5] [10, 5, 6] := by
  refine ⟨?_, by decide, by decide, ?_, ?_⟩
  · exact List.Forall₂.cons (by decide) (List.Forall₂.cons (by decide)
      (List.Forall₂.cons (by decide) List.Forall₂.nil))
  · intro h
    cases h with
    | cons h1 _ => exact absurd h1 (by decide)
  · exact List.Forall₂.cons (by decide) (List.Forall₂.cons (by decide)
      (List.Forall₂.cons (by decide) List.Forall₂.nil))

/-! ## OMTensor.h: `CartProduct` -/

theorem forall₂_concat_iff {β γ : Type} (R : β → γ → Prop) (x : List β) (V : List γ) (u : γ) :
    List.Forall₂ R x (V ++ [u]) ↔
      ∃ x0 y, x = x0 ++ [y] ∧ List.Forall₂ R x0 V ∧ R y u := by
  constructor
  · intro h
    have h2 := List.forall₂_reverse_iff.2 h
    rw [List.reverse_append, List.reverse_singleton, List.singleton_append,
      List.forall₂_cons_right_iff] at h2
    obtain ⟨a, l, hau, hl, hx⟩ := h2
    refine ⟨l.reverse, a, ?_, ?_, hau⟩
    · have hx2 := congrArg List.reverse hx
      simpa using hx2
    · have hl2 := List.forall₂_reverse_iff.2 hl
      simpa using hl2
  · rintro ⟨x0, y, rfl, h0, hy⟩
    exact List.rel_append h0 (List.Forall₂.cons hy List.Forall₂.nil)

theorem flatMap_uniform_length {β γ : Type} (L : List β) (f : β → List γ) (m : Nat)
    (hf : ∀ x ∈ L, (f x).length = m) : (L.flatMap f).length = L.length * m := by
  induction L with
  | nil => simp
  | cons a L ih =>
    rw [List.flatMap_cons, List.length_append, hf a (List.mem_cons_self a L),
      ih (fun x hx => hf x (List.mem_cons_of_mem a hx)), List.length_cons, Nat.succ_mul]
    omega

theorem flatMap_uniform_getElem? {β γ : Type} (L : List β) (f : β → List γ) (m : Nat)
    (hf : ∀ x ∈ L, (f x).length = m) (q y : Nat) (hy : y < m) :
    (L.flatMap f)[q * m + y]? = (L[q]?).bind (fun x => (f x)[y]?) := by
  induction L generalizing q with
  | nil => simp
  | cons a L ih =>
    have ha := hf a (List.mem_cons_self a L)
    rw [List.flatMap_cons]
    cases q with
    | zero =>
      rw [Nat.zero_mul, Nat.zero_add, List.getElem?_append_left (by omega)]
      simp
    | succ q =>
      have hge : (f a).length ≤ (q + 1) * m + y := by
        rw [ha, Nat.succ_mul]; omega
      rw [List.getElem?_append_right hge, ha]
      have hidx : (q + 1) * m + y - m = q * m + y := by
        rw [Nat.succ_mul]; omega
      rw [hidx, ih (fun x hx => hf x (List.mem_cons_of_mem a hx))]
      simp

theorem CartProduct_length (v : List (List Int)) :
    (CartProduct v).length = (v.map List.length).prod := by
  induction v using List.reverseRecOn with
  | nil => simp [CartProduct]
  | append_singleton V u ih =>
    rw [CartProduct_append, flatMap_uniform_length _ _ u.length (fun x _ => by simp), ih]
    simp

theorem mem_CartProduct (v : List (List Int)) (x : List Int) :
    x ∈ CartProduct v ↔ List.Forall₂ (fun a u => a ∈ u) x v := by
  induction v using List.reverseRecOn generalizing x with
  | nil =>
    simp only [CartProduct, List.foldl_nil, List.mem_singleton]
    constructor
    · rintro rfl; exact List.Forall₂.nil
    · intro h; cases h; rfl
  | append_singleton V u ih =>
    rw [CartProduct_append, forall₂_concat_iff]
    simp only [List.mem_flatMap, List.mem_map]
    constructor
    · rintro ⟨x0, hx0, y, hy, rfl⟩
      exact ⟨x0, y, rfl, (ih x0).1 hx0, hy⟩
    · rintro ⟨x0, y, rfl, hx0, hy⟩
      exact ⟨x0, (ih x0).2 hx0, y, hy, rfl⟩

/-- The position of a combination among those of one more component list. -/
theorem position_concat (sizes pos : List Nat) (n y : Nat) (hlen : pos.length = sizes.length) :
    (∑ j in Finset.range (sizes ++ [n]).length,
        (pos ++ [y]).getD j 0 * ((sizes ++ [n]).drop (j + 1)).prod) =
      (∑ j in Finset.range sizes.length, pos.getD j 0 * (sizes.drop (j + 1)).prod) * n + y := by
  rw [List.length_append, List.length_singleton, Finset.sum_range_succ, Finset.sum_mul]
  congr 1
  · apply Finset.sum_congr rfl
    intro j hj
    have hj2 : j < sizes.length := Finset.mem_range.1 hj
    rw [List.getD_append _ _ _ _ (by omega), List.drop_append_of_le_length (by omega),
      List.prod_append]
    simp [Nat.mul_assoc]
  · rw [List.getD_append_right _ _ _ _ (by omega), hlen]
    simp

/-- The combination chosen by the positions `pos` stands at the row-major
position of `pos`. -/
theorem CartProduct_getElem? (v : List (List Int)) (pos : List Nat)
    (h : List.Forall₂ (fun p u => p < List.length u) pos v) :
    (CartProduct v)[∑ j in Finset.range v.length,
        pos.getD j 0 * ((v.map List.length).drop (j + 1)).prod]? =
      some (List.zipWith (fun u p => u.getD p 0) v pos) := by
  induction v using List.reverseRecOn generalizing pos with
  | nil =>
    cases h
    simp [CartProduct]
  | append_singleton V u ih =>
    obtain ⟨P, y, rfl, hP, hy⟩ := (forall₂_concat_iff _ _ _ _).1 h
    have hlenP : P.length = V.length := hP.length_eq
    have hpos := position_concat (V.map List.length) P u.length y (by simpa using hlenP)
    have hl : (V ++ [u]).length = (V.map List.length ++ [u.length]).length := by simp
    rw [hl, List.map_append, List.map_singleton, hpos, List.length_map, CartProduct_append,
      flatMap_uniform_getElem? _ _ u.length (fun x _ => by simp) _ y hy, ih P hP]
    simp only [Option.some_bind, List.getElem?_map, List.getElem?_eq_getElem hy,
      Option.map_some']
    rw [List.zipWith_append _ _ _ _ _ hlenP.symm]
    simp [List.getD_eq_getElem?_getD, List.getElem?_eq_getElem hy]

/-- C29: for every list `v` of integer lists, `CartProduct v` holds all the
`prod |v[j]|` combinations, each a tuple of length `len(v)` whose `j`-th
component is drawn from `v[j]`, in lexicographic order of the component
positions with the last component varying fastest: the combination
`(v[0][p_0], ..., v[n-1][p_(n-1)])` stands at the position
`sum_j p_j * prod_(l > j) |v[l]|`.  Hence `CartProduct []` is the single empty
tuple, and the result is empty as soon as one component list is empty. -/
theorem CartProduct_enumerates (v : List (List Int)) :
    (CartProduct v).length = (v.map List.length).prod ∧
      (∀ x, x ∈ CartProduct v ↔ List.Forall₂ (fun a u => a ∈ u) x v) ∧
      (∀ x ∈ CartProduct v, x.length = v.length) ∧
      (∀ pos, List.Forall₂ (fun p u => p < List.length u) pos v →
        (CartProduct v)[∑ j in Finset.range v.length,
            pos.getD j 0 * ((v.map List.length).drop (j + 1)).prod]? =
          some (List.zipWith (fun u p => u.getD p 0) v pos)) ∧
      CartProduct [] = [[]] ∧
      ([] ∈ v → CartProduct v = []) := by
  refine ⟨CartProduct_length v, mem_CartProduct v, CartProduct_length_mem v,
    CartProduct_getElem? v, rfl, fun hmem => ?_⟩
  apply List.eq_nil_of_length_eq_zero
  rw [CartProduct_length]
  apply List.prod_eq_zero
  exact List.mem_map.2 ⟨[], hmem, rfl⟩

/-- Witness of C29: for the component lists (10, 11) and (20, 21, 22) the
combination at the positions (1, 2) stands at position `1 * 3 + 2 = 5` and is
(11, 22); with an empty component list the product is empty. -/
theorem CartProduct_enumerates_witness :
    (CartProduct [[10, 11], [20, 21, 22]])[5]? = some [11, 22] ∧
      CartProduct [[10, 11], []] = [] :=
  have h := CartProduct_enumerates [[10, 11], [20, 21, 22]]
  ⟨(h.2.2.2.1 [1, 2] (List.Forall₂.cons (by decide)
      (List.Forall₂.cons (by decide) List.Forall₂.nil))).trans (by decide),
    (CartProduct_enumerates [[10, 11], []]).2.2.2.2.2 (by decide)⟩

end OnnxMlir
